import Mathlib

/-!
# kubetest: test planner, command encoding, test lister and log multiplexer

A shallow embedding of the parts of `api/v1/testjob_runner.go` and
`distributed_job.go` that decide how tests are listed, sharded into pods,
encoded for the shell, attributed to log records and retried, of the init
containers and the result record of the runner, and of the once-only setup of
`api/v1/resource.go`.

Conventions of the embedding.

* Go `int` values are `Int`; the integers used here are lengths and small
  counters, far from the machine bound.
* A Go `string` is a Lean `String`, except for the command text handed to the
  base64 encoder, which is a list of bytes.
* A Go `map[string]V` is an association list with at most one live binding per
  key; iteration follows the list, one of the orders Go may choose.
* A run-time panic (slice bound out of range, integer division by zero,
  nil pointer dereference) is the result `none`.
* Calls into the cluster (building and running a job) are inputs of the model:
  the caller supplies what the cluster answered.
-/

namespace Kubetest

/-! ## Go runtime helpers -/

/-- Slice expression `list[lo:]`; `none` when the bound is out of range. -/
def sliceFrom {α : Type} (list : List α) (lo : Int) : Option (List α) :=
  if 0 ≤ lo ∧ lo ≤ (list.length : Int) then some (list.drop lo.toNat) else none

/-- Slice expression `list[lo:hi]`; `none` when a bound is out of range.  The
upper bound is checked against the length, which is at most the capacity Go
checks against. -/
def slice {α : Type} (list : List α) (lo hi : Int) : Option (List α) :=
  if 0 ≤ lo ∧ lo ≤ hi ∧ hi ≤ (list.length : Int) then
    some ((list.drop lo.toNat).take (hi - lo).toNat)
  else none

/-- Map read `m[k]` with the presence flag. -/
def mapGet {V : Type} : List (String × V) → String → Option V
  | [], _ => none
  | (k', v) :: rest, k => if k' = k then some v else mapGet rest k

/-- Builtin `delete(m, k)`. -/
def mapDelete {V : Type} (m : List (String × V)) (k : String) : List (String × V) :=
  m.filter (fun p => decide (p.1 ≠ k))

/-- Map write `m[k] = v`. -/
def mapSet {V : Type} (m : List (String × V)) (k : String) (v : V) : List (String × V) :=
  (k, v) :: mapDelete m k

/-- Values met by `for _, v := range m`. -/
def mapValues {V : Type} (m : List (String × V)) : List V :=
  m.map Prod.snd

/-- Test `strings.HasPrefix` on character lists. -/
def startsWith : List Char → List Char → Bool
  | _, [] => true
  | [], _ :: _ => false
  | c :: cs, p :: ps => c == p && startsWith cs ps

/-- Scan of `strings.Split` for a non-empty separator: `skip` counts the
characters of a separator occurrence still to be passed over, `cur` is the
piece collected since the last occurrence. -/
def splitAux (sep : List Char) : List Char → Nat → List Char → List (List Char)
  | [], _, cur => [cur]
  | _ :: cs, skip + 1, cur => splitAux sep cs skip cur
  | c :: cs, 0, cur =>
    if startsWith (c :: cs) sep then cur :: splitAux sep cs (sep.length - 1) []
    else splitAux sep cs 0 (cur ++ [c])

/-- Library function `strings.Split(s, sep)`: the pieces of `s` between the
leftmost non-overlapping occurrences of `sep`; with an empty separator, the
characters of `s` one by one. -/
def Split (s sep : String) : List String :=
  if sep.data = [] then s.data.map (fun c => String.mk [c])
  else (splitAux sep.data s.data 0 []).map String.mk

/-- Library function `strings.Join(elems, sep)`. -/
def Join (elems : List String) (sep : String) : String :=
  String.intercalate sep elems

/-! ## encoding/base64, standard alphabet with padding -/

abbrev Byte := Fin 256

/-- The alphabet of `base64.StdEncoding`. -/
def encodeStd : List Char :=
  "ABCDEFGHIJKLMNOPQRSTUVWXYZabcdefghijklmnopqrstuvwxyz0123456789+/".data

/-- The padding character of `base64.StdEncoding`. -/
def padChar : Char := '='

/-- Table lookup `enc.encode[n & 0x3F]`. -/
def encChar (n : Nat) : Char := encodeStd.getD (n % 64) padChar

/-- Inverse table lookup; `none` for a character outside the alphabet. -/
def decChar (c : Char) : Option Nat :=
  let i := encodeStd.indexOf c
  if i < 64 then some i else none

/-- Encoder of `base64.StdEncoding`: three bytes at a time are packed into a
24-bit value and cut into four 6-bit digits; a remainder of one or two bytes
is padded with `=`. -/
def encodeChars : List Byte → List Char
  | [] => []
  | [a] =>
    let val := a.val * 65536
    [encChar (val / 262144 % 64), encChar (val / 4096 % 64), padChar, padChar]
  | [a, b] =>
    let val := a.val * 65536 + b.val * 256
    [encChar (val / 262144 % 64), encChar (val / 4096 % 64), encChar (val / 64 % 64), padChar]
  | a :: b :: c :: rest =>
    let val := a.val * 65536 + b.val * 256 + c.val
    encChar (val / 262144 % 64) :: encChar (val / 4096 % 64) :: encChar (val / 64 % 64)
      :: encChar (val % 64) :: encodeChars rest

/-- Conversion `byte(n)`. -/
def toByte (n : Nat) : Byte := Fin.ofNat n

/-- Decoder for padded standard base64 text without line breaks: four digits
at a time give three bytes; padding is accepted in the last group only. -/
def decodeChars : List Char → Option (List Byte)
  | [] => some []
  | c0 :: c1 :: c2 :: c3 :: rest =>
    if rest = [] ∧ c3 = padChar then
      if c2 = padChar then
        match decChar c0, decChar c1 with
        | some n0, some n1 =>
          let val := n0 * 262144 + n1 * 4096
          some [toByte (val / 65536)]
        | _, _ => none
      else
        match decChar c0, decChar c1, decChar c2 with
        | some n0, some n1, some n2 =>
          let val := n0 * 262144 + n1 * 4096 + n2 * 64
          some [toByte (val / 65536), toByte (val / 256)]
        | _, _, _ => none
    else
      match decChar c0, decChar c1, decChar c2, decChar c3, decodeChars rest with
      | some n0, some n1, some n2, some n3, some bs =>
        let val := n0 * 262144 + n1 * 4096 + n2 * 64 + n3
        some (toByte (val / 65536) :: toByte (val / 256) :: toByte val :: bs)
      | _, _, _, _, _ => none
  | _ => none

/-- Library function `base64.StdEncoding.EncodeToString`. -/
def EncodeToString (src : List Byte) : String := String.mk (encodeChars src)

/-- Library function `base64.StdEncoding.DecodeString`, on text without line
breaks. -/
def DecodeString (s : String) : Option (List Byte) := decodeChars s.data

/-! ## Data model -/

/-- Go type `Command`, a string holding shell text, kept as its bytes. -/
abbrev Command := List Byte

/-- Go type `TestResult`, a string; its zero value is the empty string. -/
abbrev TestResult := String

def TestResultSuccess : TestResult := "success"

def TestResultFailure : TestResult := "failure"

/-- Wall-clock instants and durations, in nanoseconds. -/
abbrev Time := Int

structure TestLog where
  Name : String
  TestResult : TestResult
  ElapsedTimeSec : Int
  Message : String
  deriving DecidableEq, Repr

/-- Zero value of `TestLog`, what a map read returns for an absent key. -/
def zeroTestLog : TestLog := ⟨"", "", 0, ""⟩

structure TestResultLogDetail where
  Tests : List TestLog
  deriving DecidableEq, Repr

structure TestResultLog where
  TestResult : TestResult
  Job : String
  ElapsedTimeSec : Int
  StartedAt : Time
  Details : TestResultLogDetail
  deriving DecidableEq, Repr

/-- Errors returned by the runner: the sentinel `ErrFailedTestJob`, an error
originating outside the runner, or an error wrapped with context by
`xerrors.Errorf("...: %w", err)`. -/
inductive Err where
  | ErrFailedTestJob : Err
  | external (msg : String) : Err
  | wrapped (context : String) (cause : Err) : Err
  deriving DecidableEq, Repr

structure EnvVar where
  Name : String
  Value : String
  deriving DecidableEq, Repr

structure VolumeMount where
  Name : String
  MountPath : String
  deriving DecidableEq, Repr

structure Container where
  Name : String
  Image : String
  Command : List String
  Args : List String
  WorkingDir : String
  VolumeMounts : List VolumeMount
  Env : List EnvVar
  deriving DecidableEq, Repr

structure DistributedTestSpec where
  MaxContainersPerPod : Int
  ListCommand : Command
  ListDelimiter : String
  Pattern : String
  Retest : Bool
  RetestDelimiter : String
  deriving DecidableEq, Repr

/-- Modelled from the spec: the type of the values of the descriptor's
`Log` field and of the emitted record (`interface{}` in the code) is declared
outside the source files at hand.  A value is a JSON scalar, a time, or the
`details` object, the list of tests with the serialized fields `name`,
`testResult` and `elapsedTimeSec`. -/
inductive LogValue where
  | text (s : String) : LogValue
  | number (n : Int) : LogValue
  | time (t : Time) : LogValue
  | tests (l : List (String × TestResult × Int)) : LogValue
  deriving DecidableEq, Repr

structure TestJobSpec where
  Image : String
  Command : Command
  Workdir : String
  Env : List EnvVar
  VolumeMounts : List VolumeMount
  DistributedTest : Option DistributedTestSpec
  Repo : String
  Branch : String
  Rev : String
  GitImage : String
  Log : List (String × LogValue)
  deriving DecidableEq, Repr

structure TestJob where
  Name : String
  Namespace : String
  Spec : TestJobSpec
  deriving DecidableEq, Repr

/-- Go struct `command`. -/
structure command where
  cmd : List String
  args : List String
  test : String
  container : String
  startedAt : Time
  deriving DecidableEq, Repr

/-- Go type `commands`, a slice of `*command`. -/
abbrev commands := List command

/-- What `job.Run(ctx)` of the job library answered: success, a `FailedJob`
carrying the containers that exited non-zero, or another error. -/
inductive JobResult where
  | ok : JobResult
  | failedJob (failedContainers : List Container) : JobResult
  | error (msg : String) : JobResult
  deriving DecidableEq, Repr

/-- One entry of `Pod.Status.ContainerStatuses`: the container name and, when
the container is running, the start time of that state. -/
structure ContainerStatus where
  Name : String
  Running : Option Time
  deriving DecidableEq, Repr

/-- A log event `kubejob.ContainerLog` as the logger reads it, together with
the clock value `now` read while the event is handled. -/
structure ContainerLog where
  Pod : String
  Statuses : List ContainerStatus
  Container : String
  Log : String
  IsFinished : Bool
  now : Time
  deriving DecidableEq, Repr

/-- State shared by the logger closure of `runDistributedTest`: the runner's
container-name to command map and the closure's three maps and pod counter.
A `*command` is stored under the name of its own container only, so the
command map holds the command values themselves. -/
structure LoggerState where
  containerNameToCommandMap : List (String × command)
  containerNameToLogMap : List (String × List String)
  podNameToIndexMap : List (String × Int)
  lastPodIdx : Int
  testLogMap : List (String × TestLog)
  deriving DecidableEq, Repr

/-- What the cluster does with one pod submission: whether building the job
fails, the names the builder gives the containers (one per container
submitted), the log events delivered while the pod runs, and the result of
the run for the containers submitted. -/
structure PodRun where
  buildErr : Option String
  containerNames : List String
  events : List ContainerLog
  result : List Container → JobResult

/-- What the listing job did: the text it wrote and the error of its run. -/
structure ListRun where
  output : String
  err : Option Err
  deriving DecidableEq, Repr

/-! ## The runner `TestJobRunner` (api/v1/testjob_runner.go) -/

namespace TestJobRunner

/-- Mount of the shared workspace volume, `sharedVolumeMount`; the path is
`filepath.Join("/", "git", "workspace")`. -/
def sharedVolumeMount : VolumeMount := ⟨"repo", "/git/workspace"⟩

/-- Method `command`: the argv and the shell arguments that run `cmd`. -/
def command (cmd : Command) : List String × List String :=
  let e := EncodeToString cmd
  (["sh"], ["-c", "echo " ++ e ++ " | base64 -d | sh"])

/-- Method `testCommand`; the fields not named keep their zero values. -/
def testCommand (cmd : List String) (args : List String) (test : String) : Kubetest.command :=
  ⟨cmd, args, test, "", 0⟩

/-- Method `testsToCommands`. -/
def testsToCommands (job : TestJob) (tests : List String) : List Kubetest.command :=
  let (c, args) := command job.Spec.Command
  tests.foldl (fun commands test => commands ++ [testCommand c args test]) []

/-- Method `workingDir`. -/
def workingDir (testjob : TestJob) : String :=
  if testjob.Spec.Workdir ≠ "" then testjob.Spec.Workdir else sharedVolumeMount.MountPath

/-- Method `testCommandToContainer`. -/
def testCommandToContainer (job : TestJob) (test : Kubetest.command) : Container :=
  let env := ([] ++ job.Spec.Env) ++ [⟨"TEST", test.test⟩]
  { Name := ""
    Image := job.Spec.Image
    Command := test.cmd
    Args := test.args
    WorkingDir := workingDir job
    VolumeMounts := job.Spec.VolumeMounts ++ [sharedVolumeMount]
    Env := env }

/-- Method `commandValueMap` of `commands`: the commands keyed by test name. -/
def commandValueMap (c : commands) : List (String × Kubetest.command) :=
  c.foldl (fun m cc => mapSet m cc.test cc) []

/-- The search of `runTests` for the test name of a failed container: the
value of the first environment entry named `TEST`, else the empty string. -/
def testNameOf : List EnvVar → String
  | [] => ""
  | env :: rest => if env.Name = "TEST" then env.Value else testNameOf rest

/-- The loop of `runTests` over `failedJob.FailedContainers()`: each failed
container is mapped back to a command, `none` being the nil pointer a map
read returns for an unknown test name. -/
def failedCommands (commandValueMap : List (String × Kubetest.command))
    (failedContainers : List Container) : List (Option Kubetest.command) :=
  failedContainers.foldl
    (fun failedTestCommands container =>
      failedTestCommands ++ [mapGet commandValueMap (testNameOf container.Env)])
    []

/-- The loop of `runTests` that names each command after its container and
stores it in `containerNameToCommandMap`. -/
def storeCommands : List Kubetest.command → List String → List (String × Kubetest.command) →
    List (String × Kubetest.command)
  | c :: cs, n :: ns, m => storeCommands cs ns (mapSet m n { c with container := n })
  | _, _, m => m

/-- The loop of the logger over the container statuses of the pod: the start
time of the running state of the container named `name`, else `now`. -/
def startedAtOf (statuses : List ContainerStatus) (name : String) (now : Time) : Time :=
  statuses.foldl
    (fun startedAt status =>
      if name ≠ status.Name then startedAt
      else match status.Running with
        | none => startedAt
        | some t => t)
    now

/-- Conversion `int(time.Since(startedAt).Seconds())` at clock value `now`:
the difference of the two instants is a `Duration`, a 64-bit count of
nanoseconds that stops at its largest and smallest value, and the whole
seconds of it are taken, rounded towards zero.  The passage through `float64`
in `Seconds` is taken to be exact. -/
def elapsedSec (now startedAt : Time) : Int :=
  let d := now - startedAt
  let d :=
    if d > 9223372036854775807 then 9223372036854775807
    else if d < -9223372036854775808 then -9223372036854775808
    else d
  Int.tdiv d 1000000000

/-- The closure `logger` of `runDistributedTest`, one call under the lock.
The lines written to the diagnostic stream are left out. -/
def logger (s : LoggerState) (log : ContainerLog) : LoggerState :=
  let name := log.Container
  if log.IsFinished then
    let cmd := mapGet s.containerNameToCommandMap name
    match mapGet s.containerNameToLogMap name with
    | some logs =>
      let s1 : LoggerState :=
        match mapGet s.podNameToIndexMap log.Pod with
        | some _ => s
        | none =>
          { s with
            podNameToIndexMap := mapSet s.podNameToIndexMap log.Pod s.lastPodIdx
            lastPodIdx := s.lastPodIdx + 1 }
      let s2 : LoggerState :=
        match cmd with
        | some c =>
          { s1 with
            testLogMap := mapSet s1.testLogMap c.test
              { Name := c.test
                TestResult := TestResultSuccess
                ElapsedTimeSec := elapsedSec log.now c.startedAt
                Message := Join logs "\n" } }
        | none => s1
      { s2 with containerNameToLogMap := mapDelete s2.containerNameToLogMap name }
    | none => { s with containerNameToLogMap := mapDelete s.containerNameToLogMap name }
  else
    match mapGet s.containerNameToLogMap name with
    | some value =>
      { s with containerNameToLogMap := mapSet s.containerNameToLogMap name (value ++ [log.Log]) }
    | none =>
      let cmdMap :=
        match mapGet s.containerNameToCommandMap name with
        | some c =>
          mapSet s.containerNameToCommandMap name
            { c with startedAt := startedAtOf log.Statuses name log.now }
        | none => s.containerNameToCommandMap
      { s with
        containerNameToCommandMap := cmdMap
        containerNameToLogMap := mapSet s.containerNameToLogMap name ([] ++ [log.Log]) }

/-- Method `runTests`: submits one pod with one container per command and
returns the commands of the containers that failed, with the logger state
left by the events of the pod.  The cache init containers do not enter the
result and are left out.  The commands returned are read for their `test`
field only; they are given as they were on entry. -/
def runTests (testjob : TestJob) (s : LoggerState) (testCommands : commands) (pod : PodRun) :
    Except Err (List (Option Kubetest.command)) × LoggerState :=
  let commandValueMap := commandValueMap testCommands
  let containers :=
    testCommands.foldl (fun containers c => containers ++ [testCommandToContainer testjob c]) []
  match pod.buildErr with
  | some e => (.error (.external e), s)
  | none =>
    let s1 : LoggerState :=
      { s with
        containerNameToCommandMap :=
          storeCommands testCommands pod.containerNames s.containerNameToCommandMap }
    let s2 := pod.events.foldl logger s1
    match pod.result containers with
    | .ok => (.ok [], s2)
    | .failedJob failedContainers => (.ok (failedCommands commandValueMap failedContainers), s2)
    | .error e => (.error (.external e), s2)

/-- Method `runTest`, the non-distributed path: `buildErr` is the error of
`newJobForTesting`, `result` the answer of `job.Run`. -/
def runTest (buildErr : Option String) (result : JobResult) : List TestLog × Option Err :=
  match buildErr with
  | some e => ([], some (.external e))
  | none =>
    match result with
    | .ok => ([], none)
    | .failedJob _ => ([], some .ErrFailedTestJob)
    | .error _ => ([], some .ErrFailedTestJob)

/-- The filter loop of `testList`: the names matching the pattern are
appended one by one. -/
def filterTests (pattern : String → Bool) (list : List String) : List String :=
  list.foldl (fun tests name => if pattern name then tests ++ [name] else tests) []

/-- Method `testList`: `compile` stands for `regexp.Compile` followed by the
`MatchString` of the compiled pattern, `run` for the run of the listing job. -/
def testList (compile : String → Except String (String → Bool))
    (distributedTest : DistributedTestSpec) (run : ListRun) : Except Err (List String) :=
  let compiled : Except Err (Option (String → Bool)) :=
    if distributedTest.Pattern ≠ "" then
      match compile distributedTest.Pattern with
      | .error e =>
        .error (.wrapped "failed to compile pattern for distributed testing" (.external e))
      | .ok reg => .ok (some reg)
    else .ok none
  match compiled with
  | .error e => .error e
  | .ok pattern =>
    match run.err with
    | some e => .error (.wrapped ("failed to run listJob " ++ run.output) e)
    | none =>
      let delim := if distributedTest.ListDelimiter = "" then "\n" else distributedTest.ListDelimiter
      let result := run.output
      let list := Split result delim
      match pattern with
      | some p => .ok (filterTests p list)
      | none => .ok list

/-- The loop of `plan`, `for i := 0; i <= concurrent; i++`, with the loop
variables `i`, `sum` and `plan`; `fuel` bounds the number of tests of the
loop condition. -/
def planLoop (list : List String) (maxContainers concurrent : Int) :
    Nat → Int → Int → List (List String) → Option (List (List String))
  | 0, _, _, _ => none
  | fuel + 1, i, sum, plan =>
    if i ≤ concurrent then
      if i = concurrent then
        match sliceFrom list sum with
        | none => none
        | some g =>
          planLoop list maxContainers concurrent fuel (i + 1) (sum + maxContainers) (plan ++ [g])
      else
        match slice list sum (sum + maxContainers) with
        | none => none
        | some g =>
          planLoop list maxContainers concurrent fuel (i + 1) (sum + maxContainers) (plan ++ [g])
    else some plan

/-- Method `plan` with `maxContainers = job.Spec.DistributedTest.MaxContainersPerPod`.
The loop is given `len(list) + 2` tests of its condition, more than it can
use: it runs at most `len(list) / maxContainers + 1` times. -/
def plan (maxContainers : Int) (list : List String) : Option (List (List String)) :=
  if (list.length : Int) ≤ maxContainers then some [list]
  else if maxContainers = 0 then none
  else
    let concurrent := Int.tdiv (list.length : Int) maxContainers
    planLoop list maxContainers concurrent (list.length + 2) 0 0 []

/-- How `runDistributedTest` starts: the listing failed, the list is empty
(the method returns `nil, nil` at once), or a plan is made for the list. -/
inductive Listing where
  | failed (e : Err) : Listing
  | noTests : Listing
  | planned (list : List String) (plan : Option (List (List String))) : Listing

/-- Method `runDistributedTest` up to the plan (the lines before the logger
is set up). -/
def runDistributedTestListing (compile : String → Except String (String → Bool))
    (distributedTest : DistributedTestSpec) (run : ListRun) : Listing :=
  match testList compile distributedTest run with
  | .error e => .failed (.wrapped "failed to get list for testing" e)
  | .ok list =>
    if list.length = 0 then .noTests
    else .planned list (plan distributedTest.MaxContainersPerPod list)

/-- The loop of `runDistributedTest` that marks the test log of each failed
command as failed; `none` is the nil pointer dereference at `command.test`. -/
def markFailed : List (String × TestLog) → List (Option Kubetest.command) →
    Option (List (String × TestLog))
  | testLogMap, [] => some testLogMap
  | _, none :: _ => none
  | testLogMap, some command :: rest =>
    let log := (mapGet testLogMap command.test).getD zeroTestLog
    let log := { log with TestResult := TestResultFailure }
    markFailed (mapSet testLogMap command.test log) rest

/-- The loop of `runDistributedTest` that collects the names of the failed
tests for the retest; `none` is a nil pointer dereference. -/
def failedTestNames : List (Option Kubetest.command) → Option (List String)
  | [] => some []
  | none :: _ => none
  | some command :: rest => (failedTestNames rest).map (fun tests => command.test :: tests)

/-- Method `runDistributedTest` after `eg.Wait()` has returned without error:
`distributedTest` is `testjob.Spec.DistributedTest`, not nil on this path,
`s` is the logger state and `failedTestCommands` the failed commands left by
the first pass, `retest` what the cluster does with the retest pod.  The
result is the pair the method returns, `none` when it panics. -/
def runDistributedTestAfterWait (testjob : TestJob) (distributedTest : DistributedTestSpec)
    (s : LoggerState) (failedTestCommands : List (Option Kubetest.command)) (retest : PodRun) :
    Option (List TestLog × Option Err) :=
  if failedTestCommands.length > 0 then
    match markFailed s.testLogMap failedTestCommands with
    | none => none
    | some testLogMap =>
      let logs := mapValues testLogMap
      if !distributedTest.Retest then some (logs, some .ErrFailedTestJob)
      else
        match failedTestNames failedTestCommands with
        | none => none
        | some tests =>
          let concatedTests := Join tests distributedTest.RetestDelimiter
          let (command, args) := command testjob.Spec.Command
          let cmd := testCommand command args concatedTests
          match runTests testjob { s with testLogMap := testLogMap } [cmd] retest with
          | (.error err, _) => some (logs, some (.wrapped "failed test" err))
          | (.ok failedTests, s') =>
            if failedTests.length > 0 then some (logs, some .ErrFailedTestJob)
            else some (mapValues s'.testLogMap, none)
  else some (mapValues s.testLogMap, none)

/-- Method `Run` from the call of `run` on: `runResult` is what `run`
returned; the result is the record as the deferred function finds it and
the returned error.  The elapsed time is filled in and the record is printed
by the deferred function, which is not part of this definition. -/
def Run (jobName : String) (startedAt : Time) (runResult : List TestLog × Option Err) :
    TestResultLog × Option Err :=
  let testLog : TestResultLog := ⟨"", jobName, 0, startedAt, ⟨[]⟩⟩
  let (testLogs, err) := runResult
  let testLog := { testLog with Details := ⟨testLogs⟩ }
  match err with
  | some e => ({ testLog with TestResult := TestResultFailure }, some e)
  | none => ({ testLog with TestResult := TestResultSuccess }, none)

end TestJobRunner

/-! ## The legacy job `DistributedTestJob` (distributed_job.go) -/

namespace DistributedTestJob

/-- Method `testList` of the legacy job: `pattern` is the compiled pattern of
the job, `nil` when none was set; `run` is the run of the listing job. -/
def testList (listDelimiter : String) (pattern : Option (String → Bool)) (run : ListRun) :
    Except Err (List String) :=
  match run.err with
  | some e => .error (.wrapped "failed to get test list" e)
  | none =>
    let result := run.output
    if result.length = 0 then .error (.external "could not find test list. list is empty")
    else
      let delim := if listDelimiter = "" then "\n" else listDelimiter
      let list := Split result delim
      let tests :=
        match pattern with
        | some p => TestJobRunner.filterTests p list
        | none => list
      if tests.length = 0 then
        .error (.external ("could not find test list. list is invalid " ++ result))
      else .ok tests

end DistributedTestJob


/-! ## Sample inputs -/

/-- A command for the test `a`. -/
def sampleCommand : command := ⟨["sh"], ["-c", "run"], "a", "", 0⟩

/-- A logger state in which container `c1` runs the test `a` and nothing has
been logged yet. -/
def sampleState : LoggerState := ⟨[("c1", sampleCommand)], [], [], 0, []⟩

/-- Two chunks of container `c1` with a chunk of container `c2` in between. -/
def sampleEvents : List ContainerLog :=
  [⟨"pod", [], "c1", "x", false, 5⟩, ⟨"pod", [], "c2", "y", false, 6⟩,
   ⟨"pod", [], "c1", "z", false, 7⟩]

/-- The terminal event of container `c1`. -/
def sampleFinished : ContainerLog := ⟨"pod", [], "c1", "", true, 9⟩


/-- The entries a listing stands for: the pieces of the output `s` split by
the delimiter `d`, the empty delimiter standing for a newline, that match the
pattern; all pieces when no pattern is set. -/
def listedEntries (s d : String) (pattern : Option (String → Bool)) : List String :=
  let pieces := Split s (if d = "" then "\n" else d)
  match pattern with
  | some p => pieces.filter p
  | none => pieces

/-- A matcher standing for the compiled pattern `^Test`. -/
def sampleMatcher : String → Bool := fun name => startsWith name.data "Test".data

/-- A pattern compiler that knows the pattern `^Test` only. -/
def sampleCompile : String → Except String (String → Bool) :=
  fun pattern => if pattern = "^Test" then .ok sampleMatcher else .error "unknown pattern"

/-- A distribution config with the pattern `^Test`, two containers per pod
and retest switched on. -/
def sampleDistributed : DistributedTestSpec := ⟨2, [], "", "^Test", true, " "⟩

/-- The same config without a pattern. -/
def sampleDistributedNoPattern : DistributedTestSpec := ⟨2, [], "", "", true, " "⟩


/-- A distributed job without environment entries of its own. -/
def sampleJob : TestJob :=
  ⟨"job", "default",
    ⟨"image", [], "", [], [], some sampleDistributed, "github.com/org/repo", "", "abc", "", []⟩⟩

/-- The same job with an environment entry named `TEST` of its own. -/
def sampleJobTestEnv : TestJob :=
  ⟨"job", "default",
    ⟨"image", [], "", [⟨"TEST", "x"⟩], [], some sampleDistributed, "github.com/org/repo", "",
      "abc", "", []⟩⟩

/-- A pod whose containers all exit non-zero without writing a line. -/
def sampleFailingPod : PodRun := ⟨none, ["c1"], [], fun containers => .failedJob containers⟩

/-- The logger state after the first pass in which container `c1`, running
the test `a`, ended without having written a line. -/
def sampleSilentState : LoggerState := TestJobRunner.logger sampleState sampleFinished


/-- The name carried by the entry of key `k` in a test log map, the empty
name of the zero value when there is no entry. -/
def entryName (m : List (String × TestLog)) (k : String) : String :=
  ((mapGet m k).getD zeroTestLog).Name


/-! ## Init containers, result record and pod submissions of the runner -/

namespace TestJobRunner

/-- Constant `gitImageName`. -/
def gitImageName : String := "alpine/git"

/-- Constant `oauthTokenEnv`. -/
def oauthTokenEnv : String := "OAUTH_TOKEN"

/-- Method `gitImage`. -/
def gitImage (job : TestJob) : String :=
  if job.Spec.GitImage ≠ "" then job.Spec.GitImage else gitImageName

/-- Method `cloneURL`; `token` is the field `r.token` of the runner. -/
def cloneURL (token : String) (job : TestJob) : String :=
  let repo := job.Spec.Repo
  if token ≠ "" then "https://$(" ++ oauthTokenEnv ++ ")@" ++ repo ++ ".git"
  else "https://" ++ repo ++ ".git"

/-- Method `gitCloneContainer`. -/
def gitCloneContainer (token : String) (job : TestJob) : Container :=
  let url := cloneURL token job
  let cloneCmd := ["clone"]
  let volumeMount := sharedVolumeMount
  let branch := job.Spec.Branch
  let cloneCmd :=
    if branch ≠ "" then cloneCmd ++ ["-b", branch, url, volumeMount.MountPath]
    else cloneCmd ++ [url, volumeMount.MountPath]
  { Name := "kubetest-init-clone"
    Image := gitImage job
    Command := ["git"]
    Args := cloneCmd
    WorkingDir := ""
    VolumeMounts := [volumeMount]
    Env := [⟨oauthTokenEnv, token⟩] }

/-- Method `gitSwitchContainer`. -/
def gitSwitchContainer (job : TestJob) : Container :=
  let volumeMount := sharedVolumeMount
  { Name := "kubetest-init-switch"
    Image := gitImage job
    Command := ["git"]
    Args := ["checkout", "--detach", job.Spec.Rev]
    WorkingDir := volumeMount.MountPath
    VolumeMounts := [volumeMount]
    Env := [] }

/-- Method `initContainers`. -/
def initContainers (token : String) (job : TestJob) : List Container :=
  if job.Spec.Branch ≠ "" then [gitCloneContainer token job]
  else [gitCloneContainer token job, gitSwitchContainer job]

/-- The first statement of `run`: a job with neither branch nor revision is
given the branch `master`.  Every job that reaches `initContainers` has passed
through it. -/
def defaultBranch (testjob : TestJob) : TestJob :=
  if testjob.Spec.Branch = "" ∧ testjob.Spec.Rev = "" then
    { testjob with Spec := { testjob.Spec with Branch := "master" } }
  else testjob

/-- The object `json.Marshal(testLog)` produces, read back into `logMap`: the
five keys of `TestResultLog`; of each test the fields with a JSON name. -/
def recordOf (testLog : TestResultLog) : List (String × LogValue) :=
  [("testResult", .text testLog.TestResult),
   ("job", .text testLog.Job),
   ("elapsedTimeSec", .number testLog.ElapsedTimeSec),
   ("startedAt", .time testLog.StartedAt),
   ("details", .tests (testLog.Details.Tests.map
      (fun t => (t.Name, t.TestResult, t.ElapsedTimeSec))))]

/-- The loop `for k, v := range testjob.Spec.Log` of the deferred function of
`Run`. -/
def mergeLog (logMap : List (String × LogValue)) (log : List (String × LogValue)) :
    List (String × LogValue) :=
  log.foldl (fun logMap kv => mapSet logMap kv.1 kv.2) logMap

/-- The deferred function of `Run`: `testLog` is the record as `Run` leaves
it, `start` the clock value taken when the function was deferred, `now` the
clock value when it runs.  The result is the object printed, `none` when the
result log is disabled. -/
def RunDeferred (disabledResultLog : Bool) (testjob : TestJob) (testLog : TestResultLog)
    (start now : Time) : Option (List (String × LogValue)) :=
  if disabledResultLog then none
  else
    let testLog := { testLog with ElapsedTimeSec := elapsedSec now start }
    let logMap := recordOf testLog
    some (mergeLog logMap testjob.Spec.Log)

/-- The record `Run` prints for the job `testjob` when `run` returned
`runResult`. -/
def RunRecord (disabledResultLog : Bool) (testjob : TestJob) (startedAt start now : Time)
    (runResult : List TestLog × Option Err) : Option (List (String × LogValue)) :=
  RunDeferred disabledResultLog testjob (Run testjob.Name startedAt runResult).1 start now

/-- The loop of `runDistributedTest` over the plan: the commands handed to
`runTests`, one list per pod-group, in the order of the plan. -/
def podCommands (testjob : TestJob) (plan : List (List String)) : List commands :=
  plan.foldl (fun submitted tests => submitted ++ [testsToCommands testjob tests]) []

end TestJobRunner

/-! ## The resource manager (api/v1/resource.go) -/

/-- Struct `ResourceManager`, with the repository manager as a value of type
`R`; `setupOnce` tells whether `setupOnce.Do` has run its function.  The
token and artifact managers play no part in `Setup` and are left out. -/
structure ResourceManager (R : Type) where
  repoMgr : R
  setupOnce : Bool
  doneSetup : Bool

/-- Function `NewResourceManager`: the once-guard unused, `doneSetup` false. -/
def NewResourceManager {R : Type} (repoMgr : R) : ResourceManager R :=
  ⟨repoMgr, false, false⟩

namespace ResourceManager

/-- Method `Setup`.  `cloneAll` stands for `RepositoryManager.CloneAll`, which
is declared outside the source files at hand: it takes the repository manager
to its new value and an error.  The result is the manager after the call and
the error returned. -/
def Setup {R : Type} (cloneAll : R → R × Option Err) (m : ResourceManager R) :
    ResourceManager R × Option Err :=
  let (m1, err) :=
    if m.setupOnce then (m, (none : Option Err))
    else
      let (repoMgr, e) := cloneAll m.repoMgr
      ({ m with repoMgr := repoMgr, setupOnce := true }, e)
  ({ m1 with doneSetup := true }, err)

/-- Method `RepositoryPathByName`; `clonedPathByRepoName` stands for the
method of the repository manager. -/
def RepositoryPathByName {R : Type} (clonedPathByRepoName : R → String → String × Option Err)
    (m : ResourceManager R) (name : String) : String × Option Err :=
  if !m.doneSetup then ("", some (.external "kubetest: resource manager isn't setup"))
  else clonedPathByRepoName m.repoMgr name

/-- A sequence of `n` calls of `Setup`, one after the other: the manager
after the last call and the errors returned, in order. -/
def SetupCalls {R : Type} (cloneAll : R → R × Option Err) :
    Nat → ResourceManager R → ResourceManager R × List (Option Err)
  | 0, m => (m, [])
  | n + 1, m =>
    let (m1, err) := Setup cloneAll m
    let (m2, errs) := SetupCalls cloneAll n m1
    (m2, err :: errs)

/-- The clone step `cloneAll` on a repository manager that keeps, next to its
value, a count of the runs of its clone step: each run adds one to the count.
The count changes only when the clone step itself runs. -/
def countingCloneAll {R : Type} (cloneAll : R → R × Option Err) :
    R × Nat → (R × Nat) × Option Err :=
  fun repoMgr => (((cloneAll repoMgr.1).1, repoMgr.2 + 1), (cloneAll repoMgr.1).2)

end ResourceManager


/-! ## The planner of the legacy job (distributed_job.go) -/

/-- Index expression `list[i]`; `none` when the index is out of range. -/
def index {α : Type} (list : List α) (i : Int) : Option α :=
  if 0 ≤ i ∧ i < (list.length : Int) then list[i.toNat]? else none

/-- Assignment `list[i] = v`; `none` when the index is out of range. -/
def setIndex {α : Type} (list : List α) (i : Int) (v : α) : Option (List α) :=
  if 0 ≤ i ∧ i < (list.length : Int) then some (list.set i.toNat v) else none

namespace DistributedTestJob

/-- The first loop of `plan`, `for i := 0; i < len(list); i++`, which puts
the test of index `i` alone into the group of index `i`; `fuel` bounds the
number of tests of the loop condition. -/
def planSingleLoop (list : List String) :
    Nat → Int → List (List String) → Option (List (List String))
  | 0, _, _ => none
  | fuel + 1, i, plan =>
    if i < (list.length : Int) then
      match index list i with
      | none => none
      | some test =>
        match setIndex plan i [test] with
        | none => none
        | some plan => planSingleLoop list fuel (i + 1) plan
    else some plan

/-- The second loop of `plan`, `for i := 0; i < t.podNum; i++`, with the loop
variables `i`, `sum` and `plan`; `fuel` bounds the number of tests of the loop
condition. -/
def planLoop (list : List String) (podNum testNum lastIdx : Int) :
    Nat → Int → Int → List (List String) → Option (List (List String))
  | 0, _, _, _ => none
  | fuel + 1, i, sum, plan =>
    if i < podNum then
      if i = lastIdx then
        match sliceFrom list sum with
        | none => none
        | some g => planLoop list podNum testNum lastIdx fuel (i + 1) (sum + testNum) (plan ++ [g])
      else
        match slice list sum (sum + testNum) with
        | none => none
        | some g => planLoop list podNum testNum lastIdx fuel (i + 1) (sum + testNum) (plan ++ [g])
    else some plan

/-- Method `plan` of the legacy job with `podNum = t.podNum`.  Each loop is
given `len(list) + 1` tests of its condition, as many as it can use: the
first runs `len(list)` times, the second `podNum ≤ len(list)` times. -/
def plan (podNum : Int) (list : List String) : Option (List (List String)) :=
  if (list.length : Int) < podNum then
    let plan : List (List String) := List.replicate list.length []
    planSingleLoop list (list.length + 1) 0 plan
  else if podNum = 0 then none
  else
    let testNum := Int.tdiv (list.length : Int) podNum
    let lastIdx := podNum - 1
    planLoop list podNum testNum lastIdx (list.length + 1) 0 0 []

end DistributedTestJob

/-! ## More sample inputs -/

/-- A job with both a branch and a revision. -/
def sampleJobBranchRev : TestJob :=
  ⟨"job", "default",
    ⟨"image", [], "", [], [], none, "github.com/org/repo", "dev", "abc", "", []⟩⟩

/-- A job with neither a branch nor a revision. -/
def sampleJobNoRev : TestJob :=
  ⟨"job", "default",
    ⟨"image", [], "", [], [], none, "github.com/org/repo", "", "", "", []⟩⟩

/-- A job whose log fields set the standard key `job` and a key of their
own. -/
def sampleJobLog : TestJob :=
  ⟨"job", "default",
    ⟨"image", [], "", [], [], none, "github.com/org/repo", "master", "", "",
      [("job", .text "nightly"), ("team", .text "infra")]⟩⟩

/-- A clone step that puts the path of the clone after the paths it finds
and fails. -/
def sampleCloneAll : List String → List String × Option Err :=
  fun paths => (paths ++ ["/repos/app"], some (.external "clone failed"))

end Kubetest

/-! # Theorems -/

namespace Kubetest

/-! ## Planner -/

/-- The loop of `plan`, entered at iteration `j` with `sum = j * M`, ends and
appends to the plan: full groups of `M` tests up to `k * M`, then the rest of
the list. -/
theorem planLoop_spec (list : List String) (M k : Nat) (hM : 1 ≤ M)
    (hk : k * M ≤ list.length) :
    ∀ (fuel j : Nat) (acc : List (List String)), j ≤ k → k + 2 - j ≤ fuel →
      ∃ gs, TestJobRunner.planLoop list (M : Int) (k : Int) fuel (j : Int)
              ((j * M : Nat) : Int) acc = some (acc ++ gs)
        ∧ gs.flatten = list.drop (j * M)
        ∧ gs.length = k + 1 - j
        ∧ (∀ g ∈ gs.dropLast, g.length = M)
        ∧ gs.getLast? = some (list.drop (k * M)) := by
  intro fuel
  induction fuel with
  | zero => intro j acc hj hf; omega
  | succ fuel ih =>
    intro j acc hj hf
    have hjk : ((j : Int) ≤ (k : Int)) := by omega
    by_cases hEq : j = k
    · subst hEq
      have hs : sliceFrom list ((j * M : Nat) : Int) = some (list.drop (j * M)) := by
        unfold sliceFrom
        rw [if_pos ⟨by omega, by omega⟩, Int.toNat_ofNat]
      refine ⟨[list.drop (j * M)], ?_, by simp, by simp, by simp, by simp⟩
      rw [TestJobRunner.planLoop, if_pos hjk, if_pos rfl, hs]
      simp only
      cases fuel with
      | zero => omega
      | succ f =>
        rw [TestJobRunner.planLoop, if_neg (by omega)]
    · have hlt : j < k := by omega
      have hle : (j + 1) * M ≤ k * M := Nat.mul_le_mul_right M hlt
      have hexp : (j + 1) * M = j * M + M := by ring
      have hs : slice list ((j * M : Nat) : Int) (((j * M : Nat) : Int) + (M : Int))
          = some ((list.drop (j * M)).take M) := by
        unfold slice
        rw [if_pos ⟨by omega, by omega, by omega⟩, Int.toNat_ofNat, add_sub_cancel_left,
          Int.toNat_ofNat]
      obtain ⟨gs, h1, h2, h3, h4, h5⟩ := ih (j + 1) (acc ++ [(list.drop (j * M)).take M])
        (by omega) (by omega)
      have hne : gs ≠ [] := by
        intro h; rw [h] at h3; simp at h3; omega
      refine ⟨(list.drop (j * M)).take M :: gs, ?_, ?_, ?_, ?_, ?_⟩
      · rw [TestJobRunner.planLoop, if_pos hjk, if_neg (by omega), hs]
        simp only
        have hc : (((j * M : Nat) : Int) + (M : Int)) = (((j + 1) * M : Nat) : Int) := by
          rw [hexp]; push_cast; ring
        have hc2 : ((j : Int) + 1) = ((j + 1 : Nat) : Int) := by push_cast; ring
        rw [hc, hc2, h1]
        simp
      · rw [List.flatten_cons, h2, hexp, ← List.drop_drop]
        exact List.take_append_drop M _
      · simp [h3]; omega
      · intro g hg
        cases gs with
        | nil => exact absurd rfl hne
        | cons a t =>
          rw [List.dropLast_cons₂] at hg
          rcases List.mem_cons.mp hg with h | h
          · subst h
            rw [List.length_take, List.length_drop]
            omega
          · exact h4 g h
      · cases gs with
        | nil => exact absurd rfl hne
        | cons a t => rw [List.getLast?_cons_cons]; exact h5

/-- Shape of the plan of a list longer than `M`, for `M ≥ 1`: the loop
returns, the groups concatenate to the list, there are `|L| / M + 1` of them,
all but the last have `M` tests and the last is the rest of the list. -/
theorem plan_long (M : Nat) (hM : 1 ≤ M) (L : List String) (hlen : M < L.length) :
    ∃ gs, TestJobRunner.plan (M : Int) L = some gs
      ∧ gs.flatten = L
      ∧ gs.length = L.length / M + 1
      ∧ (∀ g ∈ gs.dropLast, g.length = M)
      ∧ gs.getLast? = some (L.drop (L.length / M * M)) := by
  have hk : L.length / M * M ≤ L.length := Nat.div_mul_le_self _ _
  obtain ⟨gs, h1, h2, h3, h4, h5⟩ :=
    planLoop_spec L M (L.length / M) hM hk (L.length + 2) 0 [] (Nat.zero_le _)
      (by have := Nat.div_le_self L.length M; omega)
  refine ⟨gs, ?_, ?_, ?_, h4, h5⟩
  · unfold TestJobRunner.plan
    rw [if_neg (by omega), if_neg (by omega)]
    simp only [← Int.ofNat_tdiv]
    simpa using h1
  · simpa using h2
  · simpa using h3

/-- Every group of the plan of a list longer than `M` has at most `M` tests. -/
theorem plan_long_bound (M : Nat) (hM : 1 ≤ M) (L : List String) (gs : List (List String))
    (h4 : ∀ g ∈ gs.dropLast, g.length = M)
    (h5 : gs.getLast? = some (L.drop (L.length / M * M))) :
    ∀ g ∈ gs, g.length ≤ M := by
  intro g hg
  have hsplit := List.dropLast_append_getLast? _ (Option.mem_def.mpr h5)
  rw [← hsplit] at hg
  rcases List.mem_append.mp hg with h | h
  · exact le_of_eq (h4 g h)
  · rw [List.mem_singleton] at h
    subst h
    rw [List.length_drop]
    have h1 := Nat.div_add_mod L.length M
    have h2 := Nat.mod_lt L.length (show 0 < M by omega)
    have h3 : L.length / M * M = M * (L.length / M) := Nat.mul_comm _ _
    omega

/-- C1. For every test list `L` and every `M ≥ 1`, `plan` returns, and its
groups concatenated in order are exactly `L`. -/
theorem plan_concat (M : Int) (hM : 1 ≤ M) (L : List String) :
    ∃ groups, TestJobRunner.plan M L = some groups ∧ groups.flatten = L := by
  obtain ⟨m, rfl⟩ := Int.eq_ofNat_of_zero_le (show 0 ≤ M by omega)
  by_cases hlen : L.length ≤ m
  · refine ⟨[L], ?_, by simp⟩
    unfold TestJobRunner.plan
    rw [if_pos (by omega)]
  · obtain ⟨gs, h1, h2, _⟩ := plan_long m (by omega) L (by omega)
    exact ⟨gs, h1, h2⟩

theorem plan_concat_witness :
    (1 : Int) ≤ 2 ∧
    ∃ groups, TestJobRunner.plan 2 ["a", "b", "c", "d", "e"] = some groups
      ∧ groups.flatten = ["a", "b", "c", "d", "e"] :=
  ⟨by decide, plan_concat 2 (by decide) ["a", "b", "c", "d", "e"]⟩

/-- C2. For every test list `L` and every `M ≥ 1`, `plan` returns without a
slice bound out of range, and every group has at most `M` tests. -/
theorem plan_group_size (M : Int) (hM : 1 ≤ M) (L : List String) :
    ∃ groups, TestJobRunner.plan M L = some groups
      ∧ ∀ g ∈ groups, (g.length : Int) ≤ M := by
  obtain ⟨m, rfl⟩ := Int.eq_ofNat_of_zero_le (show 0 ≤ M by omega)
  by_cases hlen : L.length ≤ m
  · refine ⟨[L], ?_, ?_⟩
    · unfold TestJobRunner.plan
      rw [if_pos (by omega)]
    · intro g hg
      rw [List.mem_singleton] at hg
      subst hg
      omega
  · obtain ⟨gs, h1, _, _, h4, h5⟩ := plan_long m (by omega) L (by omega)
    refine ⟨gs, h1, ?_⟩
    intro g hg
    have := plan_long_bound m (by omega) L gs h4 h5 g hg
    omega

theorem plan_group_size_witness :
    (1 : Int) ≤ 2 ∧
    ∃ groups, TestJobRunner.plan 2 ["a", "b", "c", "d", "e"] = some groups
      ∧ ∀ g ∈ groups, (g.length : Int) ≤ 2 :=
  ⟨by decide, plan_group_size 2 (by decide) ["a", "b", "c", "d", "e"]⟩

/-! ## Command encoding -/

/-- Every 6-bit digit is read back from its character. -/
theorem decChar_encChar : ∀ n, n < 64 → decChar (encChar n) = some n := by decide

/-- No digit of the alphabet is the padding character. -/
theorem encChar_ne_pad : ∀ n, n < 64 → encChar n ≠ padChar := by decide

theorem decChar_enc_mod (n : Nat) : decChar (encChar (n % 64)) = some (n % 64) :=
  decChar_encChar _ (Nat.mod_lt _ (by decide))

theorem enc_mod_ne_pad (n : Nat) : encChar (n % 64) ≠ padChar :=
  encChar_ne_pad _ (Nat.mod_lt _ (by decide))

/-- Decoding the encoded characters gives the bytes back. -/
theorem decode_encode (src : List Byte) : decodeChars (encodeChars src) = some src := by
  induction src using encodeChars.induct with
  | case1 => rfl
  | case2 a =>
    have ha := a.isLt
    simp only [encodeChars, decodeChars, decChar_enc_mod, enc_mod_ne_pad, and_self, if_true,
      true_and]
    simp only [toByte, Option.some.injEq, List.cons.injEq, and_true]
    apply Fin.ext
    simp [Fin.ofNat]
    omega
  | case3 a b =>
    have ha := a.isLt
    have hb := b.isLt
    simp only [encodeChars, decodeChars, decChar_enc_mod, enc_mod_ne_pad, and_self, if_true,
      true_and, if_false]
    simp only [toByte, Option.some.injEq, List.cons.injEq, and_true]
    constructor <;> apply Fin.ext <;> simp [Fin.ofNat] <;> omega
  | case4 a b c rest ih =>
    have ha := a.isLt
    have hb := b.isLt
    have hc := c.isLt
    simp only [encodeChars, decodeChars, decChar_enc_mod, enc_mod_ne_pad, and_false, if_false, ih]
    simp only [toByte, Option.some.injEq, List.cons.injEq, and_true]
    refine ⟨?_, ?_, ?_⟩ <;> apply Fin.ext <;> simp [Fin.ofNat] <;> omega

/-- The encoder agrees with the test vectors of RFC 4648 for the text
`foobar` and its prefixes of length one and two. -/
theorem EncodeToString_vectors :
    EncodeToString [102] = "Zg==" ∧ EncodeToString [102, 111] = "Zm8=" ∧
    EncodeToString [102, 111, 111, 98, 97, 114] = "Zm9vYmFy" := by decide

/-- C3. For every command string `s`, `command` returns the argv `sh` and the
arguments `-c` and `echo E | base64 -d | sh`, where `E` is the standard base64
encoding of the bytes of `s`, and decoding `E` yields `s` byte for byte. -/
theorem command_roundtrip (s : Command) :
    TestJobRunner.command s
        = (["sh"], ["-c", "echo " ++ EncodeToString s ++ " | base64 -d | sh"])
      ∧ DecodeString (EncodeToString s) = some s :=
  ⟨rfl, decode_encode s⟩

/-! ## Maps -/

theorem mapGet_mapDelete_self {V : Type} (m : List (String × V)) (k : String) :
    mapGet (mapDelete m k) k = none := by
  induction m with
  | nil => rfl
  | cons p rest ih =>
    obtain ⟨k', v⟩ := p
    by_cases h : k' = k
    · simpa [mapDelete, h] using ih
    · simpa [mapDelete, h, mapGet] using ih

theorem mapGet_mapDelete_ne {V : Type} (m : List (String × V)) (k k' : String) (hne : k' ≠ k) :
    mapGet (mapDelete m k) k' = mapGet m k' := by
  induction m with
  | nil => rfl
  | cons p rest ih =>
    obtain ⟨k'', v⟩ := p
    have ih2 : mapGet (List.filter (fun p => decide (p.1 ≠ k)) rest) k' = mapGet rest k' := ih
    by_cases h : k'' = k
    · subst h
      have h2 : k'' ≠ k' := fun h3 => hne h3.symm
      simp only [mapDelete, List.filter_cons, ne_eq, not_true_eq_false, decide_False,
        Bool.false_eq_true, if_false, mapGet, h2]
      exact ih2
    · by_cases h2 : k'' = k'
      · subst h2
        simp [mapDelete, List.filter_cons, hne, mapGet]
      · simp only [mapDelete, List.filter_cons, ne_eq, h, not_false_eq_true, decide_True,
          if_true, mapGet, h2, if_false]
        exact ih2

theorem mapGet_mapSet_self {V : Type} (m : List (String × V)) (k : String) (v : V) :
    mapGet (mapSet m k v) k = some v := by
  simp [mapSet, mapGet]

theorem mapGet_mapSet_ne {V : Type} (m : List (String × V)) (k k' : String) (v : V)
    (hne : k' ≠ k) : mapGet (mapSet m k v) k' = mapGet m k' := by
  have h : k ≠ k' := fun h => hne h.symm
  simp only [mapSet, mapGet, h, if_false]
  exact mapGet_mapDelete_ne m k k' hne

/-! ## Log multiplexer -/

/-- The logger never changes the test name of the command of a container. -/
theorem logger_cmd_test (s : LoggerState) (e : ContainerLog) (c : String) :
    (mapGet (TestJobRunner.logger s e).containerNameToCommandMap c).map (fun x => x.test)
      = (mapGet s.containerNameToCommandMap c).map (fun x => x.test) := by
  unfold TestJobRunner.logger
  cases hf : e.IsFinished
  case true =>
    simp only [if_true]
    cases mapGet s.containerNameToLogMap e.Container with
    | none => rfl
    | some logs =>
      simp only
      cases mapGet s.containerNameToCommandMap e.Container <;>
        cases mapGet s.podNameToIndexMap e.Pod <;> rfl
  case false =>
    simp only [Bool.false_eq_true, if_false]
    cases mapGet s.containerNameToLogMap e.Container with
    | some value => rfl
    | none =>
      simp only
      cases hc : mapGet s.containerNameToCommandMap e.Container with
      | none => rfl
      | some cmd =>
        simp only
        by_cases hn : c = e.Container
        · subst hn
          rw [mapGet_mapSet_self, hc]
          rfl
        · rw [mapGet_mapSet_ne _ _ _ _ hn]

theorem foldl_logger_cmd_test (evs : List ContainerLog) (s : LoggerState) (c : String) :
    (mapGet (evs.foldl TestJobRunner.logger s).containerNameToCommandMap c).map (fun x => x.test)
      = (mapGet s.containerNameToCommandMap c).map (fun x => x.test) := by
  induction evs generalizing s with
  | nil => rfl
  | cons e rest ih => rw [List.foldl_cons, ih, logger_cmd_test]

/-- An event of another container leaves the buffer of `c` as it is. -/
theorem logger_buffer_other (s : LoggerState) (e : ContainerLog) (c : String)
    (hne : e.Container ≠ c) :
    mapGet (TestJobRunner.logger s e).containerNameToLogMap c
      = mapGet s.containerNameToLogMap c := by
  have hne2 : c ≠ e.Container := fun h => hne h.symm
  unfold TestJobRunner.logger
  cases hf : e.IsFinished
  case true =>
    simp only [if_true]
    cases mapGet s.containerNameToLogMap e.Container with
    | none => exact mapGet_mapDelete_ne _ _ _ hne2
    | some logs =>
      simp only
      cases mapGet s.containerNameToCommandMap e.Container <;>
        cases mapGet s.podNameToIndexMap e.Pod <;> exact mapGet_mapDelete_ne _ _ _ hne2
  case false =>
    simp only [Bool.false_eq_true, if_false]
    cases mapGet s.containerNameToLogMap e.Container with
    | some value => exact mapGet_mapSet_ne _ _ _ _ hne2
    | none => exact mapGet_mapSet_ne _ _ _ _ hne2

/-- A non-terminal event of `c` appends its chunk to the buffer of `c`. -/
theorem logger_buffer_append (s : LoggerState) (e : ContainerLog)
    (hf : e.IsFinished = false) :
    mapGet (TestJobRunner.logger s e).containerNameToLogMap e.Container
      = some ((mapGet s.containerNameToLogMap e.Container).getD [] ++ [e.Log]) := by
  unfold TestJobRunner.logger
  simp only [hf, Bool.false_eq_true, if_false]
  cases mapGet s.containerNameToLogMap e.Container with
  | some value => simp only [mapGet_mapSet_self, Option.getD_some]
  | none => simp only [mapGet_mapSet_self, Option.getD_none]

/-- A non-terminal event leaves `testLogMap` as it is. -/
theorem logger_testLogMap_nonterminal (s : LoggerState) (e : ContainerLog)
    (hf : e.IsFinished = false) :
    (TestJobRunner.logger s e).testLogMap = s.testLogMap := by
  unfold TestJobRunner.logger
  simp only [hf, Bool.false_eq_true, if_false]
  cases mapGet s.containerNameToLogMap e.Container <;> rfl

/-- A terminal event of a container without a buffer leaves `testLogMap` as
it is. -/
theorem logger_testLogMap_nobuffer (s : LoggerState) (e : ContainerLog)
    (hb : mapGet s.containerNameToLogMap e.Container = none) :
    (TestJobRunner.logger s e).testLogMap = s.testLogMap := by
  unfold TestJobRunner.logger
  cases hf : e.IsFinished
  case true => simp only [if_true, hb]
  case false => simp only [Bool.false_eq_true, if_false, hb]

/-- A terminal event of a container without a command leaves `testLogMap` as
it is. -/
theorem logger_testLogMap_nocommand (s : LoggerState) (e : ContainerLog)
    (hc : mapGet s.containerNameToCommandMap e.Container = none) :
    (TestJobRunner.logger s e).testLogMap = s.testLogMap := by
  unfold TestJobRunner.logger
  cases hf : e.IsFinished
  case true =>
    simp only [if_true, hc]
    cases mapGet s.containerNameToLogMap e.Container with
    | none => rfl
    | some logs => cases mapGet s.podNameToIndexMap e.Pod <;> rfl
  case false =>
    simp only [Bool.false_eq_true, if_false]
    cases mapGet s.containerNameToLogMap e.Container <;> rfl

/-- A terminal event of a container with a buffer and a command writes the
test log of the command. -/
theorem logger_testLogMap_terminal (s : LoggerState) (e : ContainerLog) (logs : List String)
    (cmd : command) (hf : e.IsFinished = true)
    (hb : mapGet s.containerNameToLogMap e.Container = some logs)
    (hc : mapGet s.containerNameToCommandMap e.Container = some cmd) :
    (TestJobRunner.logger s e).testLogMap
      = mapSet s.testLogMap cmd.test
          ⟨cmd.test, TestResultSuccess, TestJobRunner.elapsedSec e.now cmd.startedAt,
            Join logs "\n"⟩ := by
  unfold TestJobRunner.logger
  simp only [hf, if_true, hb, hc]
  cases mapGet s.podNameToIndexMap e.Pod <;> rfl

/-- Appending chunks one by one to a buffer that exists. -/
theorem foldl_buffer_some (chunks : List String) (l : List String) :
    chunks.foldl (fun (b : Option (List String)) x => some (b.getD [] ++ [x])) (some l)
      = some (l ++ chunks) := by
  induction chunks generalizing l with
  | nil => simp
  | cons x xs ih => rw [List.foldl_cons, Option.getD_some, ih]; simp

/-- The buffer of container `c` after a run of events in which `c` has no
terminal event: the chunks of `c` are appended in the order of arrival. -/
theorem foldl_logger_buffer (c : String) (evs : List ContainerLog)
    (hnt : ∀ e ∈ evs, e.Container = c → e.IsFinished = false) (s : LoggerState) :
    mapGet (evs.foldl TestJobRunner.logger s).containerNameToLogMap c
      = ((evs.filter (fun e => decide (e.Container = c))).map (fun e => e.Log)).foldl
          (fun (b : Option (List String)) x => some (b.getD [] ++ [x]))
          (mapGet s.containerNameToLogMap c) := by
  induction evs generalizing s with
  | nil => rfl
  | cons e rest ih =>
    have hrest : ∀ e ∈ rest, e.Container = c → e.IsFinished = false :=
      fun e he => hnt e (List.mem_cons_of_mem _ he)
    rw [List.foldl_cons, ih hrest]
    by_cases hc : e.Container = c
    · have hf := hnt e (List.mem_cons_self _ _) hc
      have hb := logger_buffer_append s e hf
      rw [hc] at hb
      rw [hb]
      simp [List.filter_cons, hc]
    · rw [logger_buffer_other s e c hc]
      simp [List.filter_cons, hc]

/-- C4. If container `c`, mapped to a command with test name `t` and without
buffered lines, receives at least one non-terminal event and no terminal one
among the events `evs` (events of other containers may be interleaved), and
then its terminal event `fin`, then right after `fin` the entry of `t` in
`testLogMap` has name `t`, result success and as message the chunks of `c`
joined by newlines in the order of arrival. -/
theorem logger_attribution (s : LoggerState) (c t : String) (cmd : command)
    (evs : List ContainerLog) (fin : ContainerLog)
    (hcmd : mapGet s.containerNameToCommandMap c = some cmd) (ht : cmd.test = t)
    (hbuf : mapGet s.containerNameToLogMap c = none)
    (hnt : ∀ e ∈ evs, e.Container = c → e.IsFinished = false)
    (hn : ∃ e ∈ evs, e.Container = c)
    (hfc : fin.Container = c) (hff : fin.IsFinished = true) :
    ∃ tl, mapGet ((evs ++ [fin]).foldl TestJobRunner.logger s).testLogMap t = some tl
      ∧ tl.Name = t ∧ tl.TestResult = TestResultSuccess
      ∧ tl.Message
          = Join ((evs.filter (fun e => decide (e.Container = c))).map (fun e => e.Log)) "\n" := by
  have hb := foldl_logger_buffer c evs hnt s
  rw [hbuf] at hb
  have hchunks : (evs.filter (fun e => decide (e.Container = c))).map (fun e => e.Log) ≠ [] := by
    obtain ⟨e, he, hec⟩ := hn
    have hm : e ∈ evs.filter (fun e => decide (e.Container = c)) :=
      List.mem_filter.mpr ⟨he, by simpa using hec⟩
    intro h
    rw [List.map_eq_nil_iff] at h
    rw [h] at hm
    exact absurd hm (List.not_mem_nil _)
  generalize (evs.filter (fun e => decide (e.Container = c))).map (fun e => e.Log) = chunks
    at hb hchunks ⊢
  have hb2 : mapGet (evs.foldl TestJobRunner.logger s).containerNameToLogMap fin.Container
      = some chunks := by
    rw [hfc, hb]
    cases chunks with
    | nil => exact absurd rfl hchunks
    | cons x xs =>
      rw [List.foldl_cons, Option.getD_none, foldl_buffer_some]
      rfl
  have hc := foldl_logger_cmd_test evs s c
  rw [hcmd] at hc
  cases hcmd2 : mapGet (evs.foldl TestJobRunner.logger s).containerNameToCommandMap c with
  | none => rw [hcmd2] at hc; cases hc
  | some cmd2 =>
    rw [hcmd2] at hc
    have htest : cmd2.test = t := by
      simp only [Option.map_some', Option.some.injEq] at hc
      rw [hc, ht]
    rw [← hfc] at hcmd2
    rw [List.foldl_append, List.foldl_cons, List.foldl_nil,
      logger_testLogMap_terminal _ fin chunks cmd2 hff hb2 hcmd2, htest, mapGet_mapSet_self]
    exact ⟨_, rfl, rfl, rfl, rfl⟩

theorem logger_attribution_witness :
    mapGet sampleState.containerNameToLogMap "c1" = none ∧
    ∃ tl, mapGet ((sampleEvents ++ [sampleFinished]).foldl TestJobRunner.logger
              sampleState).testLogMap "a" = some tl
      ∧ tl.Name = "a" ∧ tl.TestResult = TestResultSuccess
      ∧ tl.Message
          = Join ((sampleEvents.filter (fun e => decide (e.Container = "c1"))).map
              (fun e => e.Log)) "\n" :=
  ⟨by decide,
   logger_attribution sampleState "c1" "a" sampleCommand sampleEvents sampleFinished
    (by decide) rfl (by decide) (by decide) (by decide) rfl rfl⟩

/-- The message recorded for the sample events is the two chunks of `c1`
joined by a newline. -/
theorem sample_message_joined :
    mapGet ((sampleEvents ++ [sampleFinished]).foldl TestJobRunner.logger
        sampleState).testLogMap "a" = some ⟨"a", "success", 0, "x\nz"⟩ := by decide

/-- One step of the logger: the entry of `t` is present afterwards exactly
when it was present before or the event is terminal for a container that has
a buffer and a command with test name `t`. -/
theorem logger_present_step (s : LoggerState) (e : ContainerLog) (t : String) :
    (mapGet (TestJobRunner.logger s e).testLogMap t).isSome = true
      ↔ (mapGet s.testLogMap t).isSome = true
        ∨ (e.IsFinished = true
          ∧ (∃ cmd, mapGet s.containerNameToCommandMap e.Container = some cmd ∧ cmd.test = t)
          ∧ (mapGet s.containerNameToLogMap e.Container).isSome = true) := by
  cases hf : e.IsFinished
  case false =>
    rw [logger_testLogMap_nonterminal s e hf]
    simp
  case true =>
    cases hb : mapGet s.containerNameToLogMap e.Container with
    | none =>
      rw [logger_testLogMap_nobuffer s e hb]
      simp
    | some logs =>
      cases hc : mapGet s.containerNameToCommandMap e.Container with
      | none =>
        rw [logger_testLogMap_nocommand s e hc]
        simp
      | some cmd =>
        rw [logger_testLogMap_terminal s e logs cmd hf hb hc]
        by_cases ht : t = cmd.test
        · subst ht
          rw [mapGet_mapSet_self]
          simp
        · rw [mapGet_mapSet_ne _ _ _ _ ht]
          have ht2 : ¬ cmd.test = t := fun h => ht h.symm
          simp [ht2]

/-- A run of the logger: the entry of `t` is present afterwards exactly when
it was present before or some event of the run was terminal for a container
that, at that moment, had a buffer and a command with test name `t`. -/
theorem logger_present_run (evs : List ContainerLog) (s : LoggerState) (t : String) :
    (mapGet (evs.foldl TestJobRunner.logger s).testLogMap t).isSome = true
      ↔ (mapGet s.testLogMap t).isSome = true
        ∨ ∃ pre ev post, evs = pre ++ ev :: post ∧ ev.IsFinished = true
          ∧ (∃ cmd, mapGet (pre.foldl TestJobRunner.logger s).containerNameToCommandMap
                ev.Container = some cmd ∧ cmd.test = t)
          ∧ (mapGet (pre.foldl TestJobRunner.logger s).containerNameToLogMap
                ev.Container).isSome = true := by
  induction evs using List.reverseRecOn with
  | nil =>
    simp
  | append_singleton init e ih =>
    rw [List.foldl_append, List.foldl_cons, List.foldl_nil, logger_present_step, ih]
    constructor
    · rintro ((h | ⟨pre, ev, post, heq, h1, h2, h3⟩) | ⟨h1, h2, h3⟩)
      · exact Or.inl h
      · refine Or.inr ⟨pre, ev, post ++ [e], ?_, h1, h2, h3⟩
        rw [heq]; simp
      · exact Or.inr ⟨init, e, [], rfl, h1, h2, h3⟩
    · rintro (h | ⟨pre, ev, post, heq, h1, h2, h3⟩)
      · exact Or.inl (Or.inl h)
      · rcases List.eq_nil_or_concat post with hp | ⟨post2, x, hp⟩
        · subst hp
          obtain ⟨hi, he⟩ := List.append_inj' heq rfl
          have he2 : e = ev := by simpa using he
          subst hi; subst he2
          exact Or.inr ⟨h1, h2, h3⟩
        · subst hp
          have heq2 : init ++ [e] = (pre ++ ev :: post2) ++ [x] := by
            rw [heq]; simp
          obtain ⟨hi, _⟩ := List.append_inj' heq2 rfl
          exact Or.inl (Or.inr ⟨pre, ev, post2, hi, h1, h2, h3⟩)

/-- C6, amended. Starting from an empty `testLogMap`, a test log for `t` is
present after the events `evs` exactly when one of them was a terminal event
for a container that, when the event was handled, was mapped to a command
with test name `t` and had a log buffer; a non-terminal event, and a terminal
event of a container without a buffer, leave `testLogMap` as it is. -/
theorem testLog_present_iff (s : LoggerState) (hempty : s.testLogMap = [])
    (evs : List ContainerLog) (t : String) :
    ((mapGet (evs.foldl TestJobRunner.logger s).testLogMap t).isSome = true
      ↔ ∃ pre ev post, evs = pre ++ ev :: post ∧ ev.IsFinished = true
          ∧ (∃ cmd, mapGet (pre.foldl TestJobRunner.logger s).containerNameToCommandMap
                ev.Container = some cmd ∧ cmd.test = t)
          ∧ (mapGet (pre.foldl TestJobRunner.logger s).containerNameToLogMap
                ev.Container).isSome = true)
    ∧ (∀ (s' : LoggerState) (e : ContainerLog), e.IsFinished = false →
        (TestJobRunner.logger s' e).testLogMap = s'.testLogMap)
    ∧ (∀ (s' : LoggerState) (e : ContainerLog),
        mapGet s'.containerNameToLogMap e.Container = none →
        (TestJobRunner.logger s' e).testLogMap = s'.testLogMap) := by
  refine ⟨?_, logger_testLogMap_nonterminal, logger_testLogMap_nobuffer⟩
  rw [logger_present_run, hempty]
  simp [mapGet]

theorem testLog_present_iff_witness :
    sampleState.testLogMap = [] ∧
    ((mapGet ((sampleEvents ++ [sampleFinished]).foldl TestJobRunner.logger
        sampleState).testLogMap "a").isSome = true
      ↔ ∃ pre ev post, sampleEvents ++ [sampleFinished] = pre ++ ev :: post
          ∧ ev.IsFinished = true
          ∧ (∃ cmd, mapGet (pre.foldl TestJobRunner.logger
                sampleState).containerNameToCommandMap ev.Container = some cmd ∧ cmd.test = "a")
          ∧ (mapGet (pre.foldl TestJobRunner.logger sampleState).containerNameToLogMap
                ev.Container).isSome = true) :=
  ⟨rfl, (testLog_present_iff sampleState rfl (sampleEvents ++ [sampleFinished]) "a").1⟩

/-- C6, counterexample. Container `c1` is mapped to a command with test name
`a`; its terminal event, handled while it has no buffered line, leaves no
entry for `a` in `testLogMap`. -/
theorem terminal_without_buffer_no_entry :
    sampleFinished.IsFinished = true
    ∧ mapGet sampleState.containerNameToCommandMap sampleFinished.Container = some sampleCommand
    ∧ sampleCommand.test = "a"
    ∧ mapGet (TestJobRunner.logger sampleState sampleFinished).testLogMap "a" = none := by
  decide

/-! ## Test lister -/

theorem filterTests_acc (p : String → Bool) (list acc : List String) :
    list.foldl (fun tests name => if p name then tests ++ [name] else tests) acc
      = acc ++ list.filter p := by
  induction list generalizing acc with
  | nil => simp
  | cons x xs ih =>
    rw [List.foldl_cons, ih]
    by_cases h : p x = true
    · simp [List.filter_cons, h]
    · simp [List.filter_cons, h]

/-- The filter loop keeps exactly the names matching the pattern, in order. -/
theorem filterTests_eq_filter (p : String → Bool) (list : List String) :
    TestJobRunner.filterTests p list = list.filter p := by
  unfold TestJobRunner.filterTests
  rw [filterTests_acc]
  rfl

/-- Splitting the empty string by a non-empty separator gives one empty
piece, not an empty list. -/
theorem Split_empty (sep : String) (h : sep ≠ "") : Split "" sep = [""] := by
  have hd : sep.data ≠ [] := by
    intro hnil
    apply h
    cases sep
    simp_all
  unfold Split
  rw [if_neg hd]
  rfl

theorem delim_ne_empty (d : String) : (if d = "" then "\n" else d) ≠ "" := by
  by_cases h : d = ""
  · rw [if_pos h]; decide
  · rw [if_neg h]; exact h

/-- Method `testList` when the listing job succeeded and the pattern, if
set, compiles: the pieces of the output that match, or all pieces. -/
theorem testList_ok (compile : String → Except String (String → Bool))
    (dt : DistributedTestSpec) (output : String) :
    (∀ p, dt.Pattern ≠ "" → compile dt.Pattern = .ok p →
        TestJobRunner.testList compile dt ⟨output, none⟩
          = .ok ((Split output (if dt.ListDelimiter = "" then "\n" else dt.ListDelimiter)).filter p))
    ∧ (dt.Pattern = "" →
        TestJobRunner.testList compile dt ⟨output, none⟩
          = .ok (Split output (if dt.ListDelimiter = "" then "\n" else dt.ListDelimiter))) := by
  constructor
  · intro p hp hc
    unfold TestJobRunner.testList
    simp only [hp, ne_eq, not_false_eq_true, if_true, hc, filterTests_eq_filter]
  · intro hp
    unfold TestJobRunner.testList
    simp only [hp, ne_eq, not_true_eq_false, if_false]

/-- Method `testList` of the legacy job when the listing job succeeded: an
error for empty output or when no entry is left, else the entries. -/
theorem legacy_testList_ok (listDelimiter : String) (pattern : Option (String → Bool))
    (output : String) :
    DistributedTestJob.testList listDelimiter pattern ⟨output, none⟩
      = if output = "" then .error (.external "could not find test list. list is empty")
        else if listedEntries output listDelimiter pattern = [] then
          .error (.external ("could not find test list. list is invalid " ++ output))
        else .ok (listedEntries output listDelimiter pattern) := by
  have hlen : output.length = 0 ↔ output = "" := by
    constructor
    · intro h
      cases output with
      | mk data =>
        have : data = [] := List.length_eq_zero.mp h
        subst this
        rfl
    · intro h; subst h; rfl
  unfold DistributedTestJob.testList listedEntries
  simp only [hlen]
  by_cases ho : output = ""
  · simp only [ho, if_true]
  · simp only [ho, if_false]
    cases pattern with
    | none => simp only [List.length_eq_zero]
    | some p => simp only [filterTests_eq_filter, List.length_eq_zero]

/-- C7, amended. When the listing job succeeded with output `s` and the
pattern, if set, compiles to `p`, `TestJobRunner.testList` returns exactly the
entries of `split(s, d)` that match `p`, in order and with duplicates, and
`split(s, d)` itself when no pattern is set; the legacy
`DistributedTestJob.testList` returns the same list when `s` and the list are
non-empty and an error otherwise. -/
theorem testList_entries (compile : String → Except String (String → Bool))
    (dt : DistributedTestSpec) (output : String) (pattern : Option (String → Bool))
    (hpat : match pattern with
      | some p => dt.Pattern ≠ "" ∧ compile dt.Pattern = .ok p
      | none => dt.Pattern = "") :
    TestJobRunner.testList compile dt ⟨output, none⟩
        = .ok (listedEntries output dt.ListDelimiter pattern)
    ∧ DistributedTestJob.testList dt.ListDelimiter pattern ⟨output, none⟩
        = (if output = "" then .error (.external "could not find test list. list is empty")
          else if listedEntries output dt.ListDelimiter pattern = [] then
            .error (.external ("could not find test list. list is invalid " ++ output))
          else .ok (listedEntries output dt.ListDelimiter pattern)) := by
  refine ⟨?_, legacy_testList_ok _ _ _⟩
  cases pattern with
  | none => exact (testList_ok compile dt output).2 hpat
  | some p => exact (testList_ok compile dt output).1 p hpat.1 hpat.2

theorem testList_entries_witness :
    TestJobRunner.testList sampleCompile sampleDistributed ⟨"TestA\nSkipMe\nTestB\nTestA", none⟩
        = .ok ["TestA", "TestB", "TestA"]
    ∧ DistributedTestJob.testList "" (some sampleMatcher) ⟨"TestA\nSkipMe\nTestB\nTestA", none⟩
        = .ok ["TestA", "TestB", "TestA"] :=
  testList_entries sampleCompile sampleDistributed "TestA\nSkipMe\nTestB\nTestA"
    (some sampleMatcher) ⟨by decide, rfl⟩

/-- C7, counterexample. With output `SkipMe` and the pattern `^Test` no entry
matches; the legacy `testList` does not return the empty list of matching
entries but an error. -/
theorem legacy_testList_no_match :
    listedEntries "SkipMe" "" (some sampleMatcher) = []
    ∧ DistributedTestJob.testList "" (some sampleMatcher) ⟨"SkipMe", none⟩
        = .error (.external "could not find test list. list is invalid SkipMe") := by
  constructor <;> rfl

/-- C8, the code on empty output. When the listing job succeeds with empty
output and no pattern is set, `testList` returns, for every delimiter, a list
holding one empty test name, so `runDistributedTest` does not return at the
check for an empty list but plans a pod for that name. -/
theorem testList_empty_output (compile : String → Except String (String → Bool))
    (dt : DistributedTestSpec) (hp : dt.Pattern = "") :
    TestJobRunner.testList compile dt ⟨"", none⟩ = .ok [""]
    ∧ TestJobRunner.runDistributedTestListing compile dt ⟨"", none⟩
        = .planned [""] (TestJobRunner.plan dt.MaxContainersPerPod [""]) := by
  have h1 : TestJobRunner.testList compile dt ⟨"", none⟩ = .ok [""] := by
    rw [(testList_ok compile dt "").2 hp, Split_empty _ (delim_ne_empty _)]
  refine ⟨h1, ?_⟩
  unfold TestJobRunner.runDistributedTestListing
  rw [h1]
  rfl

theorem testList_empty_output_witness :
    TestJobRunner.testList sampleCompile sampleDistributedNoPattern ⟨"", none⟩ = .ok [""]
    ∧ TestJobRunner.runDistributedTestListing sampleCompile sampleDistributedNoPattern ⟨"", none⟩
        = .planned [""] (some [[""]]) :=
  testList_empty_output sampleCompile sampleDistributedNoPattern rfl

/-! ## Mapping failed containers back to commands -/

theorem testNameOf_append (env : List EnvVar) (test : String)
    (h : ∀ e ∈ env, e.Name ≠ "TEST") :
    TestJobRunner.testNameOf (env ++ [⟨"TEST", test⟩]) = test := by
  induction env with
  | nil => simp [TestJobRunner.testNameOf]
  | cons e rest ih =>
    have he : e.Name ≠ "TEST" := h e (List.mem_cons_self _ _)
    have hr : ∀ e ∈ rest, e.Name ≠ "TEST" := fun x hx => h x (List.mem_cons_of_mem _ hx)
    simp only [List.cons_append, TestJobRunner.testNameOf, he, if_false]
    exact ih hr

theorem commandValueMap_not_mem (cs : List command) (m : List (String × command)) (k : String)
    (h : k ∉ cs.map (fun c => c.test)) :
    mapGet (cs.foldl (fun m cc => mapSet m cc.test cc) m) k = mapGet m k := by
  induction cs generalizing m with
  | nil => rfl
  | cons x xs ih =>
    have hx : k ≠ x.test := fun hk => h (by simp [hk])
    have hxs : k ∉ xs.map (fun c => c.test) := fun hk => h (by simp at hk ⊢; exact Or.inr hk)
    rw [List.foldl_cons, ih _ hxs, mapGet_mapSet_ne _ _ _ _ hx]

theorem commandValueMap_mem (cs : List command) (m : List (String × command)) (c : command)
    (hnodup : (cs.map (fun c => c.test)).Nodup) (hc : c ∈ cs) :
    mapGet (cs.foldl (fun m cc => mapSet m cc.test cc) m) c.test = some c := by
  induction cs generalizing m with
  | nil => exact absurd hc (List.not_mem_nil _)
  | cons x xs ih =>
    rw [List.map_cons, List.nodup_cons] at hnodup
    rw [List.foldl_cons]
    rcases List.mem_cons.mp hc with h | h
    · subst h
      rw [commandValueMap_not_mem xs _ _ hnodup.1, mapGet_mapSet_self]
    · exact ih _ hnodup.2 h

/-- When the job has no environment entry named `TEST` of its own and the
test names of the commands are pairwise distinct, each command is recovered
from the environment of its own container. -/
theorem command_recovered (job : TestJob) (cs : commands) (c : command)
    (henv : ∀ e ∈ job.Spec.Env, e.Name ≠ "TEST")
    (hnodup : (cs.map (fun c => c.test)).Nodup) (hc : c ∈ cs) :
    mapGet (TestJobRunner.commandValueMap cs)
      (TestJobRunner.testNameOf (TestJobRunner.testCommandToContainer job c).Env) = some c := by
  have h1 : (TestJobRunner.testCommandToContainer job c).Env
      = job.Spec.Env ++ [⟨"TEST", c.test⟩] := by
    simp [TestJobRunner.testCommandToContainer]
  rw [h1, testNameOf_append _ _ henv]
  exact commandValueMap_mem cs [] c hnodup hc

theorem command_recovered_witness :
    mapGet (TestJobRunner.commandValueMap [sampleCommand])
      (TestJobRunner.testNameOf
        (TestJobRunner.testCommandToContainer sampleJob sampleCommand).Env)
      = some sampleCommand :=
  command_recovered sampleJob [sampleCommand] sampleCommand (by decide) (by decide) (by decide)

/-- C9, the code at the failing input. The job has an environment entry
`TEST=x` of its own; the container of the command for test `a` carries the
entries `TEST=x` and `TEST=a` in this order, the search of `runTests` takes
the first, and the lookup of `x` in `commandValueMap` finds no command: the
failed container is mapped to a nil command. -/
theorem command_not_recovered :
    (TestJobRunner.testCommandToContainer sampleJobTestEnv sampleCommand).Env
        = [⟨"TEST", "x"⟩, ⟨"TEST", "a"⟩]
    ∧ TestJobRunner.testNameOf
        (TestJobRunner.testCommandToContainer sampleJobTestEnv sampleCommand).Env = "x"
    ∧ mapGet (TestJobRunner.commandValueMap [sampleCommand]) "x" = none
    ∧ (TestJobRunner.runTests sampleJobTestEnv sampleState [sampleCommand] sampleFailingPod).1
        = .ok [none] := by
  refine ⟨by decide, by decide, by decide, rfl⟩

/-! ## Retest and the recorded result -/

/-- C5, the code at the failing input. In the first pass the container of
test `a` exits non-zero without writing a line, so `testLogMap` has no entry
for `a`; the retest pod fails too.  `runDistributedTest` returns
`ErrFailedTestJob` and `Run` records failure, but the details hold one test
log with the empty name and none with the name `a`. -/
theorem retest_failure_nameless_log :
    sampleSilentState.testLogMap = []
    ∧ TestJobRunner.runDistributedTestAfterWait sampleJob sampleDistributed sampleSilentState
        [some sampleCommand] sampleFailingPod
        = some ([⟨"", "failure", 0, ""⟩], some .ErrFailedTestJob)
    ∧ TestJobRunner.Run "job" 0 ([⟨"", "failure", 0, ""⟩], some .ErrFailedTestJob)
        = (⟨"failure", "job", 0, 0, ⟨[⟨"", "failure", 0, ""⟩]⟩⟩, some .ErrFailedTestJob)
    ∧ ¬ ∃ tl ∈ [(⟨"", "failure", 0, ""⟩ : TestLog)], tl.Name = sampleCommand.test := by
  refine ⟨rfl, rfl, rfl, by decide⟩

/-! ## Non-distributed path -/

/-- C10, amended. `runTest` returns the sentinel `ErrFailedTestJob` exactly
when the job was built and its run failed, whether by a container failure or
by another error; an error of building the job is returned as it is; a
successful run returns no error; no test logs are returned in any case. -/
theorem runTest_outcome (buildErr : Option String) (result : JobResult) :
    ((TestJobRunner.runTest buildErr result).2 = some .ErrFailedTestJob
        ↔ buildErr = none ∧ result ≠ .ok)
    ∧ (∀ e, buildErr = some e →
        TestJobRunner.runTest buildErr result = ([], some (.external e)))
    ∧ (buildErr = none → result = .ok → TestJobRunner.runTest buildErr result = ([], none))
    ∧ (TestJobRunner.runTest buildErr result).1 = [] := by
  cases buildErr with
  | some e => simp [TestJobRunner.runTest]
  | none => cases result <;> simp [TestJobRunner.runTest]

theorem runTest_outcome_witness :
    TestJobRunner.runTest (some "no such namespace") .ok
        = ([], some (.external "no such namespace"))
    ∧ TestJobRunner.runTest none .ok = ([], none) :=
  ⟨(runTest_outcome (some "no such namespace") .ok).2.1 "no such namespace" rfl,
   (runTest_outcome none .ok).2.2.1 rfl rfl⟩

/-- C10, counterexample. A run that fails with an error other than a
container failure makes `runTest` return the sentinel `ErrFailedTestJob`,
not the originating error. -/
theorem runTest_transport_error :
    TestJobRunner.runTest none (.error "connection refused") = ([], some .ErrFailedTestJob)
    ∧ ∀ failedContainers, JobResult.error "connection refused" ≠ .failedJob failedContainers := by
  constructor
  · rfl
  · intro failedContainers h
    cases h

theorem mapGet_mem_mapValues {V : Type} (m : List (String × V)) (k : String) (v : V)
    (h : mapGet m k = some v) : v ∈ mapValues m := by
  induction m with
  | nil => cases h
  | cons p rest ih =>
    obtain ⟨k', v'⟩ := p
    by_cases hk : k' = k
    · simp only [mapGet, hk, if_true, Option.some.injEq] at h
      subst h
      simp [mapValues]
    · simp only [mapGet, hk, if_false] at h
      have := ih h
      simp only [mapValues, List.map_cons, List.mem_cons] at this ⊢
      exact Or.inr this

/-- The marking loop, when no failed command is nil: it ends, every failed
test gets an entry with result failure whose name is the name its entry had
before (empty when it had none), and the other entries are untouched. -/
theorem markFailed_spec (failed : List (Option command)) (hsome : ∀ x ∈ failed, x ≠ none) :
    ∀ m : List (String × TestLog), ∃ m', TestJobRunner.markFailed m failed = some m'
      ∧ (∀ c, some c ∈ failed → ∃ tl, mapGet m' c.test = some tl
            ∧ tl.TestResult = TestResultFailure ∧ tl.Name = entryName m c.test)
      ∧ (∀ k, (∀ c, some c ∈ failed → c.test ≠ k) → mapGet m' k = mapGet m k) := by
  induction failed with
  | nil =>
    intro m
    exact ⟨m, rfl, fun c hc => absurd hc (List.not_mem_nil _), fun _ _ => rfl⟩
  | cons x rest ih =>
    intro m
    have hrest : ∀ x ∈ rest, x ≠ none := fun y hy => hsome y (List.mem_cons_of_mem _ hy)
    cases x with
    | none => exact absurd rfl (hsome none (List.mem_cons_self _ _))
    | some c0 =>
      obtain ⟨m', h1, h2, h3⟩ := ih hrest
        (mapSet m c0.test
          { (mapGet m c0.test).getD zeroTestLog with TestResult := TestResultFailure })
      have hname : ∀ k, entryName (mapSet m c0.test
          { (mapGet m c0.test).getD zeroTestLog with TestResult := TestResultFailure }) k
          = entryName m k := by
        intro k
        unfold entryName
        by_cases hk : k = c0.test
        · subst hk
          rw [mapGet_mapSet_self]
          rfl
        · rw [mapGet_mapSet_ne _ _ _ _ hk]
      refine ⟨m', h1, ?_, ?_⟩
      · intro c hc
        by_cases hin : ∃ c', some c' ∈ rest ∧ c'.test = c.test
        · obtain ⟨c', hc', ht⟩ := hin
          obtain ⟨tl, ha, hb, hd⟩ := h2 c' hc'
          rw [ht] at ha hd
          rw [hname] at hd
          exact ⟨tl, ha, hb, hd⟩
        · have hc0 : c = c0 := by
            rcases List.mem_cons.mp hc with h | h
            · exact Option.some.inj h
            · exact absurd ⟨c, h, rfl⟩ hin
          subst hc0
          have hk : ∀ c', some c' ∈ rest → c'.test ≠ c.test :=
            fun c' hc' ht => hin ⟨c', hc', ht⟩
          rw [h3 c.test hk, mapGet_mapSet_self]
          exact ⟨_, rfl, rfl, rfl⟩
      · intro k hk
        have hk0 : k ≠ c0.test := fun h => hk c0 (List.mem_cons_self _ _) h.symm
        rw [h3 k (fun c hc => hk c (List.mem_cons_of_mem _ hc)), mapGet_mapSet_ne _ _ _ _ hk0]

theorem failedTestNames_some (failed : List (Option command))
    (hsome : ∀ x ∈ failed, x ≠ none) : ∃ tests, TestJobRunner.failedTestNames failed = some tests := by
  induction failed with
  | nil => exact ⟨[], rfl⟩
  | cons x rest ih =>
    cases x with
    | none => exact absurd rfl (hsome none (List.mem_cons_self _ _))
    | some c =>
      obtain ⟨tests, h⟩ := ih (fun y hy => hsome y (List.mem_cons_of_mem _ hy))
      exact ⟨c.test :: tests, by simp [TestJobRunner.failedTestNames, h]⟩

theorem failedCommands_length (m : List (String × command)) (cs : List Container) :
    (TestJobRunner.failedCommands m cs).length = cs.length := by
  unfold TestJobRunner.failedCommands
  have h : ∀ acc : List (Option command),
      (cs.foldl (fun failedTestCommands (container : Container) =>
        failedTestCommands ++ [mapGet m (TestJobRunner.testNameOf container.Env)]) acc).length
        = acc.length + cs.length := by
    induction cs with
    | nil => intro acc; rfl
    | cons c rest ih =>
      intro acc
      rw [List.foldl_cons, ih]
      simp
      omega
  simpa using h []

/-- What holds of the retest in general. With a non-empty list of failed
commands, none of them nil, retest switched on and the retest job built: if
the retest pod reports no failed container, `runDistributedTest` returns no
error and `Run` records success; if it reports a failed container, the error
is `ErrFailedTestJob`, `Run` records failure, and for every first-pass failed
test the details hold a test log with result failure whose name is the name
its entry in `testLogMap` had, the empty name when it had no entry. -/
theorem retest_outcome (testjob : TestJob) (dt : DistributedTestSpec) (s : LoggerState)
    (failed : List (Option command)) (retest : PodRun) (jobName : String) (startedAt : Time)
    (hne : failed ≠ []) (hsome : ∀ x ∈ failed, x ≠ none) (hretest : dt.Retest = true)
    (hbuild : retest.buildErr = none) :
    ∃ m tests, TestJobRunner.markFailed s.testLogMap failed = some m
      ∧ TestJobRunner.failedTestNames failed = some tests
      ∧ ((retest.result [TestJobRunner.testCommandToContainer testjob
              (TestJobRunner.testCommand (TestJobRunner.command testjob.Spec.Command).1
                (TestJobRunner.command testjob.Spec.Command).2
                (Join tests dt.RetestDelimiter))] = .ok
            ∨ retest.result [TestJobRunner.testCommandToContainer testjob
              (TestJobRunner.testCommand (TestJobRunner.command testjob.Spec.Command).1
                (TestJobRunner.command testjob.Spec.Command).2
                (Join tests dt.RetestDelimiter))] = .failedJob []) →
          ∃ logs, TestJobRunner.runDistributedTestAfterWait testjob dt s failed retest
              = some (logs, none)
            ∧ (TestJobRunner.Run jobName startedAt (logs, none)).1.TestResult = TestResultSuccess
            ∧ (TestJobRunner.Run jobName startedAt (logs, none)).2 = none)
      ∧ (∀ x xs, retest.result [TestJobRunner.testCommandToContainer testjob
              (TestJobRunner.testCommand (TestJobRunner.command testjob.Spec.Command).1
                (TestJobRunner.command testjob.Spec.Command).2
                (Join tests dt.RetestDelimiter))] = .failedJob (x :: xs) →
          TestJobRunner.runDistributedTestAfterWait testjob dt s failed retest
              = some (mapValues m, some .ErrFailedTestJob)
            ∧ (TestJobRunner.Run jobName startedAt
                (mapValues m, some .ErrFailedTestJob)).1.TestResult = TestResultFailure
            ∧ ∀ c, some c ∈ failed → ∃ tl ∈ mapValues m,
                tl.TestResult = TestResultFailure ∧ tl.Name = entryName s.testLogMap c.test) := by
  obtain ⟨m, hm, hmark, _⟩ := markFailed_spec failed hsome s.testLogMap
  obtain ⟨tests, htests⟩ := failedTestNames_some failed hsome
  have hlen : failed.length > 0 := List.length_pos.mpr hne
  refine ⟨m, tests, hm, htests, ?_, ?_⟩
  · intro hres
    unfold TestJobRunner.runDistributedTestAfterWait
    simp only [hlen, if_true, hm, hretest, Bool.not_true, Bool.false_eq_true, if_false, htests]
    unfold TestJobRunner.runTests
    simp only [hbuild, List.foldl_cons, List.foldl_nil, List.nil_append]
    rcases hres with h | h
    · rw [h]
      exact ⟨_, rfl, rfl, rfl⟩
    · rw [h]
      exact ⟨_, rfl, rfl, rfl⟩
  · intro x xs hres
    refine ⟨?_, rfl, ?_⟩
    · unfold TestJobRunner.runDistributedTestAfterWait
      simp only [hlen, if_true, hm, hretest, Bool.not_true, Bool.false_eq_true, if_false, htests]
      unfold TestJobRunner.runTests
      simp only [hbuild, List.foldl_cons, List.foldl_nil, List.nil_append]
      rw [hres]
      simp only [failedCommands_length, List.length_cons, gt_iff_lt, Nat.zero_lt_succ, if_true]
    · intro c hc
      obtain ⟨tl, h1, h2, h3⟩ := hmark c hc
      exact ⟨tl, mapGet_mem_mapValues m c.test tl h1, h2, h3⟩

/-- The logger keeps every test log under its own name. -/
theorem logger_entry_named (s : LoggerState) (e : ContainerLog)
    (h : ∀ k tl, mapGet s.testLogMap k = some tl → tl.Name = k) :
    ∀ k tl, mapGet (TestJobRunner.logger s e).testLogMap k = some tl → tl.Name = k := by
  intro k tl hk
  cases hf : e.IsFinished
  case false =>
    rw [logger_testLogMap_nonterminal s e hf] at hk
    exact h k tl hk
  case true =>
    cases hb : mapGet s.containerNameToLogMap e.Container with
    | none =>
      rw [logger_testLogMap_nobuffer s e hb] at hk
      exact h k tl hk
    | some logs =>
      cases hc : mapGet s.containerNameToCommandMap e.Container with
      | none =>
        rw [logger_testLogMap_nocommand s e hc] at hk
        exact h k tl hk
      | some cmd =>
        rw [logger_testLogMap_terminal s e logs cmd hf hb hc] at hk
        by_cases ht : k = cmd.test
        · subst ht
          rw [mapGet_mapSet_self] at hk
          cases hk
          rfl
        · rw [mapGet_mapSet_ne _ _ _ _ ht] at hk
          exact h k tl hk

/-- After any run of the logger from an empty `testLogMap`, the name carried
by the entry of a test is the test name when the entry exists and the empty
name when it does not. -/
theorem entryName_after_run (evs : List ContainerLog) (s : LoggerState)
    (hempty : s.testLogMap = []) (t : String) :
    entryName (evs.foldl TestJobRunner.logger s).testLogMap t
      = if (mapGet (evs.foldl TestJobRunner.logger s).testLogMap t).isSome then t else "" := by
  have hnamed : ∀ (evs : List ContainerLog) (s : LoggerState),
      (∀ k tl, mapGet s.testLogMap k = some tl → tl.Name = k) →
      ∀ k tl, mapGet (evs.foldl TestJobRunner.logger s).testLogMap k = some tl → tl.Name = k := by
    intro evs
    induction evs with
    | nil => intro s h; exact h
    | cons e rest ih =>
      intro s h
      rw [List.foldl_cons]
      exact ih _ (logger_entry_named s e h)
  have h0 : ∀ k tl, mapGet s.testLogMap k = some tl → tl.Name = k := by
    intro k tl hk
    rw [hempty] at hk
    cases hk
  unfold entryName
  cases hg : mapGet (evs.foldl TestJobRunner.logger s).testLogMap t with
  | none => rfl
  | some tl => exact hnamed evs s h0 t tl hg

/-! ## Init containers -/

/-- C11, amended. `initContainers` returns exactly one clone container, with
command `git` and arguments `clone [-b branch] URL /git/workspace`; when the
branch is empty it returns in addition one checkout container with command
`git` and arguments `checkout --detach rev`, and when the branch is set it
returns no checkout container, whatever the revision.  For a job as `run`
passes it on, the checkout container is there exactly when the branch is
empty and the revision is not. -/
theorem initContainers_shape (token : String) (job : TestJob) :
    (job.Spec.Branch ≠ "" →
        TestJobRunner.initContainers token job = [TestJobRunner.gitCloneContainer token job])
    ∧ (job.Spec.Branch = "" →
        TestJobRunner.initContainers token job
          = [TestJobRunner.gitCloneContainer token job, TestJobRunner.gitSwitchContainer job])
    ∧ (TestJobRunner.gitCloneContainer token job).Command = ["git"]
    ∧ (TestJobRunner.gitCloneContainer token job).Args
        = (if job.Spec.Branch ≠ "" then
            ["clone", "-b", job.Spec.Branch, TestJobRunner.cloneURL token job, "/git/workspace"]
          else ["clone", TestJobRunner.cloneURL token job, "/git/workspace"])
    ∧ (TestJobRunner.gitSwitchContainer job).Command = ["git"]
    ∧ (TestJobRunner.gitSwitchContainer job).Args = ["checkout", "--detach", job.Spec.Rev]
    ∧ (TestJobRunner.initContainers token (TestJobRunner.defaultBranch job)
          = [TestJobRunner.gitCloneContainer token (TestJobRunner.defaultBranch job),
             TestJobRunner.gitSwitchContainer (TestJobRunner.defaultBranch job)]
        ↔ job.Spec.Branch = "" ∧ job.Spec.Rev ≠ "") := by
  refine ⟨?_, ?_, rfl, ?_, rfl, rfl, ?_⟩
  · intro h
    simp [TestJobRunner.initContainers, h]
  · intro h
    simp [TestJobRunner.initContainers, h]
  · by_cases h : job.Spec.Branch = ""
    · simp [TestJobRunner.gitCloneContainer, h, TestJobRunner.sharedVolumeMount]
    · simp [TestJobRunner.gitCloneContainer, h, TestJobRunner.sharedVolumeMount]
  · by_cases hb : job.Spec.Branch = ""
    · by_cases hr : job.Spec.Rev = ""
      · simp [TestJobRunner.initContainers, TestJobRunner.defaultBranch, hb, hr]
      · simp [TestJobRunner.initContainers, TestJobRunner.defaultBranch, hb, hr]
    · simp [TestJobRunner.initContainers, TestJobRunner.defaultBranch, hb]

theorem initContainers_shape_witness :
    TestJobRunner.initContainers "" sampleJob
        = [TestJobRunner.gitCloneContainer "" sampleJob, TestJobRunner.gitSwitchContainer sampleJob]
    ∧ TestJobRunner.initContainers "" sampleJobBranchRev
        = [TestJobRunner.gitCloneContainer "" sampleJobBranchRev] :=
  ⟨(initContainers_shape "" sampleJob).2.1 rfl,
   (initContainers_shape "" sampleJobBranchRev).1 (by decide)⟩

/-- C11, counterexample. A job with branch `dev` and revision `abc` gets the
clone container only, no checkout container although the revision is set; a
job with neither branch nor revision, handed to `initContainers` as it is,
gets a checkout container for the empty revision. -/
theorem initContainers_branch_decides :
    sampleJobBranchRev.Spec.Rev = "abc"
    ∧ (TestJobRunner.initContainers "" sampleJobBranchRev).map (fun c => c.Args)
        = [["clone", "-b", "dev", "https://github.com/org/repo.git", "/git/workspace"]]
    ∧ sampleJobNoRev.Spec.Rev = ""
    ∧ (TestJobRunner.initContainers "" sampleJobNoRev).map (fun c => c.Args)
        = [["clone", "https://github.com/org/repo.git", "/git/workspace"],
           ["checkout", "--detach", ""]] := by
  decide

/-! ## Planner, continued -/

/-- C13, amended. For every `M ≥ 1`, `plan` applied to the empty test list
returns a plan with exactly one group, the empty one; `runDistributedTest`
does not ask for this plan, as it returns without tests and without error
when the list is empty. -/
theorem plan_empty_list (M : Int) (hM : 1 ≤ M) :
    TestJobRunner.plan M [] = some [[]]
    ∧ ∀ (compile : String → Except String (String → Bool)) (dt : DistributedTestSpec)
        (run : ListRun), TestJobRunner.testList compile dt run = .ok [] →
        TestJobRunner.runDistributedTestListing compile dt run = .noTests := by
  constructor
  · unfold TestJobRunner.plan
    rw [if_pos (by simpa using (by omega : (0 : Int) ≤ M))]
  · intro compile dt run h
    unfold TestJobRunner.runDistributedTestListing
    rw [h]
    rfl

theorem plan_empty_list_witness :
    (1 : Int) ≤ 2 ∧ TestJobRunner.plan 2 [] = some [[]] :=
  ⟨by decide, (plan_empty_list 2 (by decide)).1⟩

/-- C13, counterexample. With two containers per pod the plan of the empty
list has one group, not none. -/
theorem plan_empty_one_group :
    TestJobRunner.plan 2 [] = some [[]]
    ∧ (TestJobRunner.plan 2 []).map List.length = some 1 := by
  decide

theorem testsToCommands_nil (job : TestJob) : TestJobRunner.testsToCommands job [] = [] := rfl

theorem podCommands_eq_map (job : TestJob) (plan : List (List String)) :
    TestJobRunner.podCommands job plan = plan.map (TestJobRunner.testsToCommands job) := by
  unfold TestJobRunner.podCommands
  have h : ∀ acc : List commands,
      plan.foldl (fun submitted tests => submitted ++ [TestJobRunner.testsToCommands job tests]) acc
        = acc ++ plan.map (TestJobRunner.testsToCommands job) := by
    induction plan with
    | nil => intro acc; simp
    | cons g rest ih => intro acc; rw [List.foldl_cons, ih]; simp
  simpa using h []

/-- C15. For every `M ≥ 1` and every list `L` with more than `M` tests,
`plan` has `|L| / M + 1` groups, all but the last with exactly `M` tests and
the last with `|L| mod M`; when `M` divides `|L|` the last group is empty and
the last pod submitted has no command. -/
theorem plan_group_count (M : Nat) (hM : 1 ≤ M) (L : List String) (hlen : M < L.length)
    (job : TestJob) :
    ∃ groups, TestJobRunner.plan (M : Int) L = some groups
      ∧ groups.length = L.length / M + 1
      ∧ groups.dropLast.length = L.length / M
      ∧ (∀ g ∈ groups.dropLast, g.length = M)
      ∧ (∃ last, groups.getLast? = some last ∧ last.length = L.length % M)
      ∧ (M ∣ L.length →
          groups.getLast? = some []
          ∧ (TestJobRunner.podCommands job groups).length = L.length / M + 1
          ∧ (TestJobRunner.podCommands job groups).getLast? = some []) := by
  obtain ⟨gs, h1, _, h3, h4, h5⟩ := plan_long M hM L hlen
  have hdiv := Nat.div_add_mod L.length M
  have hcomm : L.length / M * M = M * (L.length / M) := Nat.mul_comm _ _
  have hlast : (L.drop (L.length / M * M)).length = L.length % M := by
    rw [List.length_drop]; omega
  refine ⟨gs, h1, h3, by rw [List.length_dropLast, h3]; rfl, h4, ⟨_, h5, hlast⟩, ?_⟩
  intro hdvd
  have hmod : L.length % M = 0 := Nat.mod_eq_zero_of_dvd hdvd
  have hnil : L.drop (L.length / M * M) = [] := by
    apply List.eq_nil_of_length_eq_zero
    rw [hlast, hmod]
  rw [hnil] at h5
  refine ⟨h5, ?_, ?_⟩
  · rw [podCommands_eq_map, List.length_map, h3]
  · rw [podCommands_eq_map, List.getLast?_map, h5]
    rfl

theorem plan_group_count_witness :
    ∃ groups, TestJobRunner.plan 2 ["a", "b", "c", "d"] = some groups
      ∧ groups.length = 4 / 2 + 1
      ∧ groups.dropLast.length = 4 / 2
      ∧ (∀ g ∈ groups.dropLast, g.length = 2)
      ∧ (∃ last, groups.getLast? = some last ∧ last.length = 4 % 2)
      ∧ (2 ∣ 4 →
          groups.getLast? = some []
          ∧ (TestJobRunner.podCommands sampleJob groups).length = 4 / 2 + 1
          ∧ (TestJobRunner.podCommands sampleJob groups).getLast? = some []) :=
  plan_group_count 2 (by decide) ["a", "b", "c", "d"] (by decide) sampleJob

/-! ## The result record -/

theorem mapGet_none_of_not_mem {V : Type} (m : List (String × V)) (k : String)
    (h : k ∉ m.map Prod.fst) : mapGet m k = none := by
  induction m with
  | nil => rfl
  | cons p rest ih =>
    obtain ⟨k', v⟩ := p
    have hk : k' ≠ k := fun hk => h (by simp [hk])
    have hr : k ∉ rest.map Prod.fst := fun hr => h (by simp at hr ⊢; exact Or.inr hr)
    simp only [mapGet, hk, if_false]
    exact ih hr

theorem not_mem_of_mapGet_none {V : Type} (m : List (String × V)) (k : String)
    (h : mapGet m k = none) : k ∉ m.map Prod.fst := by
  induction m with
  | nil => simp
  | cons p rest ih =>
    obtain ⟨k', v⟩ := p
    by_cases hk : k' = k
    · simp [mapGet, hk] at h
    · simp only [mapGet, hk, if_false] at h
      have := ih h
      simp only [List.map_cons, List.mem_cons, not_or]
      exact ⟨fun hkk => hk hkk.symm, this⟩

/-- A key that is not among the log fields keeps its value in the merge. -/
theorem mergeLog_not_mem (log logMap : List (String × LogValue)) (k : String)
    (h : k ∉ log.map Prod.fst) :
    mapGet (TestJobRunner.mergeLog logMap log) k = mapGet logMap k := by
  unfold TestJobRunner.mergeLog
  induction log generalizing logMap with
  | nil => rfl
  | cons p rest ih =>
    have hk : k ≠ p.1 := fun hk => h (by simp [hk])
    have hr : k ∉ rest.map Prod.fst := fun hr => h (by simp at hr ⊢; exact Or.inr hr)
    rw [List.foldl_cons, ih _ hr, mapGet_mapSet_ne _ _ _ _ hk]

/-- A key of the log fields carries the value of the log fields after the
merge. -/
theorem mergeLog_mem (log logMap : List (String × LogValue)) (k : String) (v : LogValue)
    (hkeys : (log.map Prod.fst).Nodup) (h : mapGet log k = some v) :
    mapGet (TestJobRunner.mergeLog logMap log) k = some v := by
  induction log generalizing logMap with
  | nil => cases h
  | cons p rest ih =>
    obtain ⟨k', v'⟩ := p
    rw [List.map_cons, List.nodup_cons] at hkeys
    have hstep : TestJobRunner.mergeLog logMap ((k', v') :: rest)
        = TestJobRunner.mergeLog (mapSet logMap k' v') rest := rfl
    rw [hstep]
    by_cases hk : k' = k
    · subst hk
      simp only [mapGet, if_true, Option.some.injEq] at h
      subst h
      rw [mergeLog_not_mem rest _ _ hkeys.1, mapGet_mapSet_self]
    · simp only [mapGet, hk, if_false] at h
      exact ih _ hkeys.2 h

/-- The five standard keys of the record and their values. -/
theorem recordOf_keys (t : TestResultLog) :
    mapGet (TestJobRunner.recordOf t) "testResult" = some (.text t.TestResult)
    ∧ mapGet (TestJobRunner.recordOf t) "job" = some (.text t.Job)
    ∧ mapGet (TestJobRunner.recordOf t) "elapsedTimeSec" = some (.number t.ElapsedTimeSec)
    ∧ mapGet (TestJobRunner.recordOf t) "startedAt" = some (.time t.StartedAt)
    ∧ mapGet (TestJobRunner.recordOf t) "details"
        = some (.tests (t.Details.Tests.map (fun x => (x.Name, x.TestResult, x.ElapsedTimeSec)))) := by
  refine ⟨?_, ?_, ?_, ?_, ?_⟩ <;> simp [TestJobRunner.recordOf, mapGet]

/-- C12. For every job descriptor whose log fields form a map and every
outcome of `run`, the record `Run` prints maps every key of the log fields to
the value of the log fields, also for a standard key, and every other key to
the value of the standard record; the standard record has the keys
`testResult`, `job`, `elapsedTimeSec`, `startedAt` and `details`. -/
theorem record_merge (testjob : TestJob) (startedAt start now : Time)
    (runResult : List TestLog × Option Err)
    (hkeys : (testjob.Spec.Log.map Prod.fst).Nodup) :
    ∃ record standard,
      TestJobRunner.RunRecord false testjob startedAt start now runResult = some record
      ∧ standard = TestJobRunner.recordOf
          { (TestJobRunner.Run testjob.Name startedAt runResult).1 with
            ElapsedTimeSec := TestJobRunner.elapsedSec now start }
      ∧ (∀ k v, mapGet testjob.Spec.Log k = some v → mapGet record k = some v)
      ∧ (∀ k, mapGet testjob.Spec.Log k = none → mapGet record k = mapGet standard k)
      ∧ mapGet standard "testResult"
          = some (.text (TestJobRunner.Run testjob.Name startedAt runResult).1.TestResult)
      ∧ mapGet standard "job" = some (.text testjob.Name)
      ∧ mapGet standard "elapsedTimeSec" = some (.number (TestJobRunner.elapsedSec now start))
      ∧ mapGet standard "startedAt" = some (.time startedAt)
      ∧ mapGet standard "details"
          = some (.tests (runResult.1.map (fun x => (x.Name, x.TestResult, x.ElapsedTimeSec)))) := by
  refine ⟨_, _, rfl, rfl, ?_, ?_, ?_, ?_, ?_, ?_, ?_⟩
  · intro k v h
    exact mergeLog_mem _ _ k v hkeys h
  · intro k h
    exact mergeLog_not_mem _ _ k (not_mem_of_mapGet_none _ k h)
  · exact (recordOf_keys _).1
  · obtain ⟨logs, err⟩ := runResult
    cases err <;> simp [TestJobRunner.recordOf, mapGet, TestJobRunner.Run]
  · exact (recordOf_keys _).2.2.1
  · obtain ⟨logs, err⟩ := runResult
    cases err <;> simp [TestJobRunner.recordOf, mapGet, TestJobRunner.Run]
  · obtain ⟨logs, err⟩ := runResult
    cases err <;> simp [TestJobRunner.recordOf, mapGet, TestJobRunner.Run]

theorem record_merge_witness :
    (sampleJobLog.Spec.Log.map Prod.fst).Nodup
    ∧ ∃ record standard,
      TestJobRunner.RunRecord false sampleJobLog 1 2 3000000002 ([], none) = some record
      ∧ standard = TestJobRunner.recordOf
          { (TestJobRunner.Run sampleJobLog.Name 1 ([], none)).1 with
            ElapsedTimeSec := TestJobRunner.elapsedSec 3000000002 2 }
      ∧ (∀ k v, mapGet sampleJobLog.Spec.Log k = some v → mapGet record k = some v)
      ∧ (∀ k, mapGet sampleJobLog.Spec.Log k = none → mapGet record k = mapGet standard k)
      ∧ mapGet standard "testResult"
          = some (.text (TestJobRunner.Run sampleJobLog.Name 1 ([], none)).1.TestResult)
      ∧ mapGet standard "job" = some (.text sampleJobLog.Name)
      ∧ mapGet standard "elapsedTimeSec"
          = some (.number (TestJobRunner.elapsedSec 3000000002 2))
      ∧ mapGet standard "startedAt" = some (.time 1)
      ∧ mapGet standard "details"
          = some (.tests (([] : List TestLog).map
              (fun x => (x.Name, x.TestResult, x.ElapsedTimeSec)))) :=
  ⟨by decide, record_merge sampleJobLog 1 2 3000000002 ([], none) (by decide)⟩

/-- The record printed for the sample job: the log fields replace the job
name and add the key `team`; the other standard keys keep their values. -/
theorem sample_record :
    (TestJobRunner.RunRecord false sampleJobLog 1 2 3000000002 ([], none)).map
        (fun record =>
          [mapGet record "job", mapGet record "team", mapGet record "testResult",
           mapGet record "elapsedTimeSec"])
      = some [some (.text "nightly"), some (.text "infra"), some (.text "success"),
          some (.number 3)] := by
  decide

/-! ## Resource manager -/

/-- Once the guard has fired and `doneSetup` is set, a call of `Setup` runs
no clone, leaves the manager as it is and returns no error. -/
theorem Setup_done {R : Type} (cloneAll : R → R × Option Err) (m : ResourceManager R)
    (honce : m.setupOnce = true) (hdone : m.doneSetup = true) :
    ResourceManager.Setup cloneAll m = (m, none) := by
  obtain ⟨repoMgr, once, done⟩ := m
  simp only at honce hdone
  subst honce hdone
  rfl

/-- The first call of `Setup` on a new manager fires the guard, puts the
result of the clone step in place of the repository manager, sets `doneSetup`
and returns the error of the clone step. -/
theorem Setup_first {R : Type} (cloneAll : R → R × Option Err) (repoMgr : R) :
    ResourceManager.Setup cloneAll (NewResourceManager repoMgr)
      = (⟨(cloneAll repoMgr).1, true, true⟩, (cloneAll repoMgr).2) := rfl

theorem SetupCalls_done {R : Type} (cloneAll : R → R × Option Err) (n : Nat)
    (m : ResourceManager R) (honce : m.setupOnce = true) (hdone : m.doneSetup = true) :
    ResourceManager.SetupCalls cloneAll n m = (m, List.replicate n none) := by
  induction n with
  | zero => rfl
  | succ n ih =>
    simp only [ResourceManager.SetupCalls, Setup_done cloneAll m honce hdone, ih,
      List.replicate_succ]

/-- A sequence of one or more calls of `Setup` on a new manager leaves the
manager the first call made and returns the error of the clone step first
and nil afterwards. -/
theorem SetupCalls_new {R : Type} (cloneAll : R → R × Option Err) (repoMgr : R) (n : Nat) :
    ResourceManager.SetupCalls cloneAll (n + 1) (NewResourceManager repoMgr)
      = (⟨(cloneAll repoMgr).1, true, true⟩, (cloneAll repoMgr).2 :: List.replicate n none) := by
  simp only [ResourceManager.SetupCalls, Setup_first,
    SetupCalls_done cloneAll n ⟨(cloneAll repoMgr).1, true, true⟩ rfl rfl]

/-- C14. In a sequence of calls of `Setup` on a new resource manager, one
after the other, the clone step runs exactly once, in the first call: the
first call leaves as repository manager the result of one run of the clone
step on the initial one and returns its error; every later call leaves the
manager as it is and returns nil, so after any number of calls the repository
manager is still the result of that one run; and a repository manager that
counts the runs of its clone step counts one after the first call and one
after every later call. -/
theorem Setup_clones_once {R : Type} (cloneAll : R → R × Option Err) (repoMgr : R) (n : Nat) :
    ResourceManager.Setup cloneAll (NewResourceManager repoMgr)
        = (⟨(cloneAll repoMgr).1, true, true⟩, (cloneAll repoMgr).2)
    ∧ ResourceManager.SetupCalls cloneAll (n + 1) (NewResourceManager repoMgr)
        = (⟨(cloneAll repoMgr).1, true, true⟩, (cloneAll repoMgr).2 :: List.replicate n none)
    ∧ (∀ k, ResourceManager.Setup cloneAll
          (ResourceManager.SetupCalls cloneAll (k + 1) (NewResourceManager repoMgr)).1
        = ((ResourceManager.SetupCalls cloneAll (k + 1) (NewResourceManager repoMgr)).1, none))
    ∧ (ResourceManager.Setup (ResourceManager.countingCloneAll cloneAll)
          (NewResourceManager (repoMgr, 0))).1.repoMgr = ((cloneAll repoMgr).1, 1)
    ∧ (ResourceManager.SetupCalls (ResourceManager.countingCloneAll cloneAll) (n + 1)
          (NewResourceManager (repoMgr, 0))).1.repoMgr = ((cloneAll repoMgr).1, 1) := by
  refine ⟨rfl, SetupCalls_new cloneAll repoMgr n, ?_, rfl, ?_⟩
  · intro k
    rw [SetupCalls_new cloneAll repoMgr k]
    exact Setup_done cloneAll _ rfl rfl
  · rw [SetupCalls_new (ResourceManager.countingCloneAll cloneAll) (repoMgr, 0) n]
    rfl

/-- Three calls of `Setup` with a clone step that fails: the repository is
cloned once, the error is returned by the first call only, the count of runs
of the clone step is one, and the repository path cannot be read before the
first call. -/
theorem sample_setup_calls :
    ResourceManager.SetupCalls sampleCloneAll 3 (NewResourceManager [])
        = (⟨["/repos/app"], true, true⟩, [some (.external "clone failed"), none, none])
    ∧ (ResourceManager.SetupCalls (ResourceManager.countingCloneAll sampleCloneAll) 3
          (NewResourceManager ([], 0))).1.repoMgr = (["/repos/app"], 1)
    ∧ (ResourceManager.SetupCalls sampleCloneAll 0 (NewResourceManager [])).1.repoMgr = []
    ∧ (ResourceManager.RepositoryPathByName (fun _ name => ("/repos/" ++ name, none))
        (NewResourceManager ([] : List String)) "app").2
        = some (.external "kubetest: resource manager isn't setup") := by
  refine ⟨rfl, rfl, rfl, rfl⟩

/-! ## Planner of the legacy job -/

/-- The first loop of the legacy `plan`, entered at index `j` with the groups
before `j` filled in, ends with one group per test. -/
theorem planSingleLoop_spec (list : List String) :
    ∀ (fuel j : Nat), j ≤ list.length → list.length + 1 - j ≤ fuel →
      DistributedTestJob.planSingleLoop list fuel (j : Int)
          ((list.take j).map (fun x => [x]) ++ List.replicate (list.length - j) [])
        = some (list.map (fun x => [x])) := by
  intro fuel
  induction fuel with
  | zero => intro j hj hf; omega
  | succ fuel ih =>
    intro j hj hf
    by_cases hEq : j = list.length
    · subst hEq
      rw [DistributedTestJob.planSingleLoop, if_neg (by omega)]
      simp
    · have hlt : j < list.length := by omega
      obtain ⟨x, hx⟩ : ∃ x, list[j]? = some x := ⟨_, List.getElem?_eq_getElem hlt⟩
      have hidx : index list (j : Int) = some x := by
        unfold index
        rw [if_pos ⟨by omega, by omega⟩, Int.toNat_ofNat, hx]
      have hrep : List.replicate (list.length - j) ([] : List String)
          = [] :: List.replicate (list.length - (j + 1)) [] := by
        have : list.length - j = (list.length - (j + 1)) + 1 := by omega
        rw [this, List.replicate_succ]
      have hlenA : ((list.take j).map (fun x => [x])).length = j := by
        rw [List.length_map, List.length_take]; omega
      have hset : setIndex ((list.take j).map (fun x => [x])
            ++ List.replicate (list.length - j) []) (j : Int) [x]
          = some ((list.take (j + 1)).map (fun x => [x])
            ++ List.replicate (list.length - (j + 1)) []) := by
        unfold setIndex
        have hlen : ((list.take j).map (fun x => [x])
            ++ List.replicate (list.length - j) ([] : List String)).length = list.length := by
          rw [List.length_append, hlenA, List.length_replicate]; omega
        rw [if_pos ⟨by omega, by omega⟩, Int.toNat_ofNat, hrep, List.set_append,
          if_neg (by omega), hlenA, Nat.sub_self, List.set_cons_zero, List.take_succ, hx]
        simp
      rw [DistributedTestJob.planSingleLoop, if_pos (by omega), hidx]
      simp only
      rw [hset]
      simp only
      have hc : ((j : Int) + 1) = ((j + 1 : Nat) : Int) := by push_cast; ring
      rw [hc]
      exact ih (j + 1) (by omega) (by omega)

theorem flatten_map_single (list : List String) :
    (list.map (fun x => [x])).flatten = list := by
  induction list with
  | nil => rfl
  | cons x xs ih => simp [ih]

/-- The second loop of the legacy `plan`, entered at iteration `j` with
`sum = j * T`, ends and appends to the plan: groups of `T` tests up to
`k * T`, then the rest of the list; `k + 1` is the number of pods. -/
theorem legacy_planLoop_spec (list : List String) (T k : Nat) (hk : k * T ≤ list.length) :
    ∀ (fuel j : Nat) (acc : List (List String)), j ≤ k → k + 2 - j ≤ fuel →
      ∃ gs, DistributedTestJob.planLoop list ((k + 1 : Nat) : Int) (T : Int)
              (((k + 1 : Nat) : Int) - 1) fuel (j : Int) ((j * T : Nat) : Int) acc
              = some (acc ++ gs)
        ∧ gs.flatten = list.drop (j * T)
        ∧ gs.length = k + 1 - j
        ∧ (∀ g ∈ gs.dropLast, g.length = T)
        ∧ gs.getLast? = some (list.drop (k * T)) := by
  intro fuel
  induction fuel with
  | zero => intro j acc hj hf; omega
  | succ fuel ih =>
    intro j acc hj hf
    have hjk : ((j : Int) < ((k + 1 : Nat) : Int)) := by omega
    by_cases hEq : j = k
    · subst hEq
      have hs : sliceFrom list ((j * T : Nat) : Int) = some (list.drop (j * T)) := by
        unfold sliceFrom
        rw [if_pos ⟨by omega, by omega⟩, Int.toNat_ofNat]
      refine ⟨[list.drop (j * T)], ?_, by simp, by simp, by simp, by simp⟩
      rw [DistributedTestJob.planLoop, if_pos hjk, if_pos (by omega), hs]
      simp only
      cases fuel with
      | zero => omega
      | succ f =>
        rw [DistributedTestJob.planLoop, if_neg (by omega)]
    · have hlt : j < k := by omega
      have hle : (j + 1) * T ≤ k * T := Nat.mul_le_mul_right T hlt
      have hexp : (j + 1) * T = j * T + T := by ring
      have hs : slice list ((j * T : Nat) : Int) (((j * T : Nat) : Int) + (T : Int))
          = some ((list.drop (j * T)).take T) := by
        unfold slice
        rw [if_pos ⟨by omega, by omega, by omega⟩, Int.toNat_ofNat, add_sub_cancel_left,
          Int.toNat_ofNat]
      obtain ⟨gs, h1, h2, h3, h4, h5⟩ := ih (j + 1) (acc ++ [(list.drop (j * T)).take T])
        (by omega) (by omega)
      have hne : gs ≠ [] := by
        intro h; rw [h] at h3; simp at h3; omega
      refine ⟨(list.drop (j * T)).take T :: gs, ?_, ?_, ?_, ?_, ?_⟩
      · rw [DistributedTestJob.planLoop, if_pos hjk, if_neg (by omega), hs]
        simp only
        have hc : (((j * T : Nat) : Int) + (T : Int)) = (((j + 1) * T : Nat) : Int) := by
          rw [hexp]; push_cast; ring
        have hc2 : ((j : Int) + 1) = ((j + 1 : Nat) : Int) := by push_cast; ring
        rw [hc, hc2, h1]
        simp
      · rw [List.flatten_cons, h2, hexp, ← List.drop_drop]
        exact List.take_append_drop T _
      · simp [h3]; omega
      · intro g hg
        cases gs with
        | nil => exact absurd rfl hne
        | cons a t =>
          rw [List.dropLast_cons₂] at hg
          rcases List.mem_cons.mp hg with h | h
          · subst h
            rw [List.length_take, List.length_drop]
            omega
          · exact h4 g h
      · cases gs with
        | nil => exact absurd rfl hne
        | cons a t => rw [List.getLast?_cons_cons]; exact h5

/-- C16. For the legacy planner with `podNum ≥ 1` and every test list `L`:
no slice bound or index is out of range, the groups concatenated in order are
`L`, there are `min(|L|, podNum)` groups and none is empty; with fewer tests
than pods each group holds one test, otherwise all groups but the last hold
`|L| / podNum` tests and the last holds these and the remainder. -/
theorem legacy_plan_shape (podNum : Nat) (hP : 1 ≤ podNum) (L : List String) :
    ∃ groups, DistributedTestJob.plan (podNum : Int) L = some groups
      ∧ groups.flatten = L
      ∧ groups.length = min L.length podNum
      ∧ (∀ g ∈ groups, g ≠ [])
      ∧ (L.length < podNum → ∀ g ∈ groups, g.length = 1)
      ∧ (podNum ≤ L.length →
          (∀ g ∈ groups.dropLast, g.length = L.length / podNum)
          ∧ ∃ last, groups.getLast? = some last
              ∧ last.length = L.length / podNum + L.length % podNum) := by
  by_cases hlen : L.length < podNum
  · have hone : ∀ g ∈ L.map (fun x => [x]), g.length = 1 := by
      intro g hg
      obtain ⟨x, _, rfl⟩ := List.mem_map.mp hg
      rfl
    refine ⟨L.map (fun x => [x]), ?_, flatten_map_single L, ?_, ?_, fun _ => hone, ?_⟩
    · unfold DistributedTestJob.plan
      rw [if_pos (by omega)]
      have h := planSingleLoop_spec L (L.length + 1) 0 (Nat.zero_le _) (by omega)
      simpa using h
    · rw [List.length_map]; omega
    · intro g hg hnil
      have := hone g hg
      rw [hnil] at this
      cases this
    · intro h; omega
  · obtain ⟨k, rfl⟩ : ∃ k, podNum = k + 1 := ⟨podNum - 1, by omega⟩
    have hdiv := Nat.div_add_mod L.length (k + 1)
    have hTpos : 0 < L.length / (k + 1) := Nat.div_pos (by omega) (by omega)
    have hmul : (k + 1) * (L.length / (k + 1)) = k * (L.length / (k + 1)) + L.length / (k + 1) := by
      ring
    rw [hmul] at hdiv
    have hk : k * (L.length / (k + 1)) ≤ L.length := by omega
    obtain ⟨gs, h1, h2, h3, h4, h5⟩ :=
      legacy_planLoop_spec L (L.length / (k + 1)) k hk (L.length + 1) 0 [] (Nat.zero_le _)
        (by omega)
    have hlast : (L.drop (k * (L.length / (k + 1)))).length
        = L.length / (k + 1) + L.length % (k + 1) := by
      rw [List.length_drop]; omega
    refine ⟨gs, ?_, by simpa using h2, by rw [h3]; omega, ?_, fun h => absurd h hlen,
      fun _ => ⟨h4, _, h5, hlast⟩⟩
    · unfold DistributedTestJob.plan
      rw [if_neg (by omega), if_neg (by omega)]
      simp only [← Int.ofNat_tdiv]
      simpa using h1
    · intro g hg hnil
      have hsplit := List.dropLast_append_getLast? _ (Option.mem_def.mpr h5)
      rw [← hsplit] at hg
      rcases List.mem_append.mp hg with h | h
      · have := h4 g h
        rw [hnil] at this
        simp at this
        omega
      · rw [List.mem_singleton] at h
        rw [hnil] at h
        have := hlast
        rw [← h] at this
        simp at this
        omega

theorem legacy_plan_shape_witness :
    ∃ groups, DistributedTestJob.plan 2 ["a", "b", "c", "d", "e"] = some groups
      ∧ groups.flatten = ["a", "b", "c", "d", "e"]
      ∧ groups.length = min 5 2
      ∧ (∀ g ∈ groups, g ≠ [])
      ∧ (5 < 2 → ∀ g ∈ groups, g.length = 1)
      ∧ (2 ≤ 5 →
          (∀ g ∈ groups.dropLast, g.length = 5 / 2)
          ∧ ∃ last, groups.getLast? = some last ∧ last.length = 5 / 2 + 5 % 2) :=
  legacy_plan_shape 2 (by decide) ["a", "b", "c", "d", "e"]

/-- The legacy plan of five tests for two pods and of two tests for three
pods. -/
theorem sample_legacy_plans :
    DistributedTestJob.plan 2 ["a", "b", "c", "d", "e"] = some [["a", "b"], ["c", "d", "e"]]
    ∧ DistributedTestJob.plan 3 ["a", "b"] = some [["a"], ["b"]] := by
  decide

end Kubetest
